import Mathlib

/-!
# Fixed-capacity FIFO cache (`fifo/fifo.go`) and its benchmark adapter (`fifo.go`)

A shallow embedding of the Go sources, followed by theorems about it.

Modelling conventions.

* Go `int` is `Int`.  The only arithmetic in the program is `c.cursor += 1`, executed
  when `cursor < len(entries)`, so no 64-bit wrap-around can take place there.
* A Go slice `[]*entry[K, V]` is a `List (Option (entry K V))`: `nil` pointers are `none`.
  Indexing outside `0 .. len-1` is a run-time panic, which the embedding renders as `none`
  (see `sliceAt`), and so is a field access through a `nil` pointer.
* A Go `map[K]int` is an association list with at most one pair per key
  (`mapGet`, `mapDelete`, `mapSet`).
* Methods with a pointer receiver take the receiver state and give it back together with
  their results: `Option (results × state)`, `none` standing for a panic.
* The mutex `mtx` is not part of the state: every method runs to completion while holding
  it, so the embedding describes the sequential behaviour of one call.
* The zero value of the value type `V` is `default` of an `Inhabited V` instance.
* `New` describes the cache that `New` returns, the allocation of its slots taken to
  succeed.  The built-in `make` panics for a length beyond what the runtime allocates;
  `makeSlice` and `NewAlloc` carry that limit as a parameter, and `NewAlloc` agrees with
  `New` whenever the slots can be allocated (`NewAlloc_eq_New`).
-/

namespace fifo

/-! ## Go built-ins used by the program -/

/-- Slice read `xs[i]`: `none` is the index-out-of-range panic. -/
def sliceAt {α : Type} (xs : List α) (i : Int) : Option α :=
  if i < 0 then none else xs[i.toNat]?

/-- Slice write `xs[i] = x` (only executed after a successful read at the same `i`). -/
def sliceSet {α : Type} (xs : List α) (i : Int) (x : α) : List α :=
  if i < 0 then xs else xs.set i.toNat x

/-- Map read `v, ok := m[k]`: `none` is `ok = false`. -/
def mapGet {K : Type} [DecidableEq K] : List (K × Int) → K → Option Int
  | [], _ => none
  | (k', v) :: m, k => if k' = k then some v else mapGet m k

/-- Built-in `delete(m, k)`. -/
def mapDelete {K : Type} [DecidableEq K] : List (K × Int) → K → List (K × Int)
  | [], _ => []
  | (k', v) :: m, k => if k' = k then mapDelete m k else (k', v) :: mapDelete m k

/-- Map write `m[k] = v`. -/
def mapSet {K : Type} [DecidableEq K] (m : List (K × Int)) (k : K) (v : Int) : List (K × Int) :=
  (k, v) :: mapDelete m k

/-! ## `fifo/fifo.go` -/

/-- Go `type entry[K comparable, V any] struct`. -/
structure entry (K V : Type) where
  key : K
  value : V
deriving DecidableEq, Repr

/-- Go `type fifoCache[K comparable, V any] struct` (without the mutex). -/
structure fifoCache (K V : Type) where
  /-- blank is a static empty value that we return on miss -/
  blank : V
  /-- cursor tracks the position we will write to next in the entries slice -/
  cursor : Int
  /-- index maps keys to their position in the entries slice -/
  index : List (K × Int)
  /-- maxSize is the upper bound on how many entries can be cached -/
  maxSize : Int
  /-- entries contains the cached values -/
  entries : List (Option (entry K V))
deriving DecidableEq, Repr

/-- Go `func New[K comparable, V any](maxSize int) (Cache[K, V], error)`:
`Except.ok c` is the return `(c, nil)`; there is no `return nil, err` in the source.
The allocation of the slots is taken to succeed here; `NewAlloc` below is the same function
with the limit of `make` made explicit. -/
def New {K V : Type} [Inhabited V] (maxSize : Int) : Except String (fifoCache K V) :=
  let maxSize := if maxSize ≤ 0 then 10 else maxSize
  Except.ok
    { blank := default
      cursor := 0
      index := []
      maxSize := maxSize
      entries := List.replicate maxSize.toNat none }

/-- Built-in `make([]*T, len)` on a runtime that allocates slices of this element type up to
`maxLen` elements: all slots are `nil`, and `none` is the panic of `make` for a negative
length or a length beyond `maxLen` (`makeslice: len out of range`, or the runtime running
out of memory). -/
def makeSlice {α : Type} (maxLen : Nat) (len : Int) : Option (List (Option α)) :=
  if len < 0 ∨ (maxLen : Int) < len then none else some (List.replicate len.toNat none)

/-- Go `func New[K comparable, V any](maxSize int) (Cache[K, V], error)` with the allocation
of the slots by `make([]*entry[K, V], maxSize)` made explicit: `none` is the panic of
`make`, `some (Except.ok c)` is the return `(c, nil)`.  (`make(map[K]int, maxSize)` takes
`maxSize` as a hint only and allocates nothing up front for a hint it cannot serve.) -/
def NewAlloc {K V : Type} [Inhabited V] (maxLen : Nat) (maxSize : Int) :
    Option (Except String (fifoCache K V)) :=
  let maxSize := if maxSize ≤ 0 then 10 else maxSize
  match makeSlice maxLen maxSize with
  | none => none
  | some entries =>
    some (Except.ok
      { blank := default
        cursor := 0
        index := []
        maxSize := maxSize
        entries := entries })

/-- Go `func (c *fifoCache[K, V]) Get(key K) (V, bool)`. -/
def fifoCache.Get {K V : Type} [DecidableEq K] (c : fifoCache K V) (key : K) :
    Option ((V × Bool) × fifoCache K V) :=
  match mapGet c.index key with
  | none => some ((c.blank, false), c)
  | some idx =>
    match sliceAt c.entries idx with
    | none => none
    | some none => none
    | some (some e) => some ((e.value, true), c)

/-- Go `func (c *fifoCache[K, V]) Add(key K, val V) bool`. -/
def fifoCache.Add {K V : Type} [DecidableEq K] (c : fifoCache K V) (key : K) (val : V) :
    Option (Bool × fifoCache K V) :=
  match sliceAt c.entries c.cursor with
  | none => none
  | some prevEntry =>
    let evictionOcurred := prevEntry.isSome
    let index :=
      match prevEntry with
      | some e => mapDelete c.index e.key
      | none => c.index
    let index := mapSet index key c.cursor
    let entries := sliceSet c.entries c.cursor (some { key := key, value := val })
    let cursor := c.cursor + 1
    let cursor := if cursor = c.maxSize then 0 else cursor
    some (evictionOcurred, { c with index := index, entries := entries, cursor := cursor })

/-! ## Call sequences -/

/-- One call on the `Cache` interface. -/
inductive Call (K V : Type) where
  | add (key : K) (val : V)
  | get (key : K)
deriving DecidableEq, Repr

/-- What a call returned. -/
inductive Ret (V : Type) where
  | added (evicted : Bool)
  | got (val : V) (found : Bool)
deriving DecidableEq, Repr

/-- Execute one call. -/
def step {K V : Type} [DecidableEq K] (c : fifoCache K V) : Call K V → Option (Ret V × fifoCache K V)
  | Call.add key val =>
    match c.Add key val with
    | none => none
    | some (b, c') => some (Ret.added b, c')
  | Call.get key =>
    match c.Get key with
    | none => none
    | some ((v, ok), c') => some (Ret.got v ok, c')

/-- Execute a sequence of calls, collecting what they return. -/
def run {K V : Type} [DecidableEq K] (c : fifoCache K V) :
    List (Call K V) → Option (List (Ret V) × fifoCache K V)
  | [] => some ([], c)
  | call :: rest =>
    match step c call with
    | none => none
    | some (r, c') =>
      match run c' rest with
      | none => none
      | some (rs, c'') => some (r :: rs, c'')

/-- `New(maxSize)` followed by a sequence of calls on the cache it returned. -/
def runFresh {K V : Type} [DecidableEq K] [Inhabited V] (maxSize : Int) (calls : List (Call K V)) :
    Option (List (Ret V) × fifoCache K V) :=
  match (New maxSize : Except String (fifoCache K V)) with
  | Except.error _ => none
  | Except.ok c => run c calls

/-- The `(key, value)` arguments of the `Add` calls of a sequence, in order. -/
def addsOf {K V : Type} : List (Call K V) → List (K × V)
  | [] => []
  | Call.add key val :: rest => (key, val) :: addsOf rest
  | Call.get _ :: rest => addsOf rest

/-- The capacity `New` settles on for a requested `maxSize`. -/
def capacity (maxSize : Int) : Nat :=
  (if maxSize ≤ 0 then 10 else maxSize).toNat

/-- Whether `Get(key)` reports the key as present (`false` also when `Get` would panic). -/
def found {K V : Type} [DecidableEq K] (c : fifoCache K V) (key : K) : Bool :=
  match c.Get key with
  | some ((_, ok), _) => ok
  | none => false

/-- The state of a cache of capacity `M` after the `Add` calls `as` (oldest first), in terms
of that history: the ring position of the `i`-th `Add` (counting from 0) is `i % M`, the
last `M` of them are still in their slots, and the index only knows last occurrences that
are still in their slot. -/
structure Tr {K V : Type} [DecidableEq K] [Inhabited V] (M : Nat) (as : List (K × V))
    (c : fifoCache K V) : Prop where
  pos : 1 ≤ M
  maxSize_eq : c.maxSize = (M : Int)
  length_eq : c.entries.length = M
  cursor_eq : c.cursor = ((as.length % M : Nat) : Int)
  blank_eq : c.blank = default
  keys_nodup : (c.index.map Prod.fst).Nodup
  recent : ∀ i k v, as[i]? = some (k, v) → as.length ≤ i + M →
    c.entries[i % M]? = some (some { key := k, value := v })
  vacant : ∀ j, as.length ≤ j → j < M → c.entries[j]? = some none
  filled : ∀ j, j < as.length → j < M → ∃ e, c.entries[j]? = some (some e)
  index_sound : ∀ k p, mapGet c.index k = some p →
    ∃ i v, as[i]? = some (k, v) ∧ as.length ≤ i + M ∧ p = ((i % M : Nat) : Int) ∧
      ∀ i' v', i < i' → as[i']? ≠ some (k, v')
  index_complete : (as.map Prod.fst).Nodup → ∀ i k v, as[i]? = some (k, v) →
    as.length ≤ i + M → mapGet c.index k = some ((i % M : Nat) : Int)
  newest : ∀ k v, as.getLast? = some (k, v) →
    mapGet c.index k = some (((as.length - 1) % M : Nat) : Int)

/-- The last `t` elements of a list (all of it when it is shorter). -/
def lastN {α : Type} (t : Nat) (l : List α) : List α :=
  l.drop (l.length - t)

/-- An element of a call sequence into which further calls of `Get` have been inserted:
either a call of the sequence itself or an inserted `Get(key)`. -/
inductive Item (K V : Type) where
  | orig (call : Call K V)
  | extraGet (key : K)
deriving DecidableEq, Repr

/-- The call sequence with the inserted calls of `Get` in place. -/
def withExtraGets {K V : Type} : List (Item K V) → List (Call K V)
  | [] => []
  | Item.orig call :: rest => call :: withExtraGets rest
  | Item.extraGet key :: rest => Call.get key :: withExtraGets rest

/-- The call sequence without the inserted calls of `Get`. -/
def withoutExtraGets {K V : Type} : List (Item K V) → List (Call K V)
  | [] => []
  | Item.orig call :: rest => call :: withoutExtraGets rest
  | Item.extraGet _ :: rest => withoutExtraGets rest

/-- From the results of the sequence with the inserted calls, the results of the calls of
the sequence itself. -/
def origResults {K V : Type} : List (Item K V) → List (Ret V) → List (Ret V)
  | Item.orig _ :: rest, r :: rs => r :: origResults rest rs
  | Item.extraGet _ :: rest, _ :: rs => origResults rest rs
  | _, _ => []

end fifo

/-! ## `fifo.go` (package `main`): the benchmark adapter -/

namespace main

/-- Go `any`, for the dynamic values this program stores in it: the `nil` interface value
(the zero value) and strings. -/
inductive GoAny where
  | nil
  | str (s : String)
deriving DecidableEq, Repr

instance : Inhabited GoAny := ⟨GoAny.nil⟩

/-- Go `type FIFOCache struct`. -/
structure FIFOCache where
  store : fifo.fifoCache String GoAny
deriving DecidableEq, Repr

/-- Go `func NewFIFO(size int) Cache`: `Except.error err` is the exit through
`log.Fatal(err)`. -/
def NewFIFO (size : Int) : Except String FIFOCache :=
  match (fifo.New size : Except String (fifo.fifoCache String GoAny)) with
  | Except.error err => Except.error err
  | Except.ok store => Except.ok { store := store }

/-- Go `func NewFIFO(size int) Cache` on top of `fifo.NewAlloc`: `none` is the panic of
`make` inside `fifo.New`, `some (Except.error err)` is the exit through `log.Fatal(err)`. -/
def NewFIFOAlloc (maxLen : Nat) (size : Int) : Option (Except String FIFOCache) :=
  match (fifo.NewAlloc maxLen size : Option (Except String (fifo.fifoCache String GoAny))) with
  | none => none
  | some (Except.error err) => some (Except.error err)
  | some (Except.ok store) => some (Except.ok { store := store })

/-- Go `func (f *FIFOCache) Name() string`. -/
def FIFOCache.Name (_f : FIFOCache) : String := "fifo"

/-- Go `func (f *FIFOCache) Set(key string)`. -/
def FIFOCache.Set (f : FIFOCache) (key : String) : Option FIFOCache :=
  match f.store.Add key (GoAny.str "") with
  | none => none
  | some (_, store) => some { store := store }

/-- Go `func (f *FIFOCache) Close()`. -/
def FIFOCache.Close (f : FIFOCache) : FIFOCache := f

/-- Go `func (f *FIFOCache) Get(key string) bool`. -/
def FIFOCache.Get (f : FIFOCache) (key : String) : Option (Bool × FIFOCache) :=
  match f.store.Get key with
  | none => none
  | some ((_, ok), store) => some (ok, { store := store })

/-- One call on the adapter: `Set(key)` or `Get(key)`. -/
inductive Op where
  | set (key : String)
  | get (key : String)
deriving DecidableEq, Repr

/-- Execute one adapter call; `Set` returns nothing, `Get` returns a boolean. -/
def stepOp (f : FIFOCache) : Op → Option (Option Bool × FIFOCache)
  | Op.set key =>
    match f.Set key with
    | none => none
    | some f' => some (none, f')
  | Op.get key =>
    match f.Get key with
    | none => none
    | some (ok, f') => some (some ok, f')

/-- Execute a sequence of adapter calls, collecting what they return. -/
def runOps (f : FIFOCache) : List Op → Option (List (Option Bool) × FIFOCache)
  | [] => some ([], f)
  | op :: rest =>
    match stepOp f op with
    | none => none
    | some (r, f') =>
      match runOps f' rest with
      | none => none
      | some (rs, f'') => some (r :: rs, f'')

/-- `NewFIFO(size)` followed by a sequence of calls on the adapter it returned. -/
def runAdapter (size : Int) (ops : List Op) : Option (List (Option Bool) × FIFOCache) :=
  match NewFIFO size with
  | Except.error _ => none
  | Except.ok f => runOps f ops

/-- The keys passed to `Set` in a sequence of adapter calls, in order. -/
def setKeys : List Op → List String
  | [] => []
  | Op.set key :: rest => key :: setKeys rest
  | Op.get _ :: rest => setKeys rest

end main

namespace fifo

/-! ## Lemmas on the built-ins -/

section Builtins

variable {K : Type} [DecidableEq K]

theorem sliceAt_natCast {α : Type} (xs : List α) (j : Nat) : sliceAt xs (j : Int) = xs[j]? := by
  simp [sliceAt]

theorem sliceSet_natCast {α : Type} (xs : List α) (j : Nat) (x : α) :
    sliceSet xs (j : Int) x = xs.set j x := by
  simp [sliceSet]

theorem mapGet_mapDelete (m : List (K × Int)) (k k' : K) :
    mapGet (mapDelete m k) k' = if k' = k then none else mapGet m k' := by
  induction m with
  | nil => simp [mapDelete, mapGet]
  | cons p m ih =>
    obtain ⟨a, v⟩ := p
    by_cases hak : a = k
    · by_cases hk : k' = k
      · subst hk
        simpa [mapDelete, mapGet, hak] using ih
      · have hk2 : ¬ k = k' := fun h => hk h.symm
        simp [mapDelete, mapGet, hak, hk, hk2, ih]
    · by_cases hk : k' = k
      · subst hk
        simpa [mapDelete, mapGet, hak] using ih
      · by_cases hak' : a = k'
        · simp [mapDelete, mapGet, hak, hk, hak']
        · simp [mapDelete, mapGet, hak, hk, hak', ih]

theorem mapGet_mapSet (m : List (K × Int)) (k k' : K) (v : Int) :
    mapGet (mapSet m k v) k' = if k' = k then some v else mapGet m k' := by
  by_cases hk : k' = k
  · simp [mapSet, mapGet, hk]
  · have hk2 : ¬ k = k' := fun h => hk h.symm
    simp [mapSet, mapGet, hk, hk2, mapGet_mapDelete]

theorem mem_keys_mapDelete (m : List (K × Int)) (k a : K) :
    a ∈ (mapDelete m k).map Prod.fst ↔ a ∈ m.map Prod.fst ∧ a ≠ k := by
  induction m with
  | nil => simp [mapDelete]
  | cons p m ih =>
    obtain ⟨b, v⟩ := p
    by_cases hbk : b = k
    · subst hbk
      simp only [mapDelete, if_true, ih, List.map_cons, List.mem_cons]
      constructor
      · rintro ⟨h1, h2⟩; exact ⟨Or.inr h1, h2⟩
      · rintro ⟨h1 | h1, h2⟩
        · exact absurd h1 h2
        · exact ⟨h1, h2⟩
    · simp only [mapDelete, hbk, if_false, List.map_cons, List.mem_cons, ih]
      constructor
      · rintro (h1 | ⟨h1, h2⟩)
        · exact ⟨Or.inl h1, by rw [h1]; exact hbk⟩
        · exact ⟨Or.inr h1, h2⟩
      · rintro ⟨h1 | h1, h2⟩
        · exact Or.inl h1
        · exact Or.inr ⟨h1, h2⟩

theorem nodup_keys_mapDelete (m : List (K × Int)) (k : K) (h : (m.map Prod.fst).Nodup) :
    ((mapDelete m k).map Prod.fst).Nodup := by
  induction m with
  | nil => simp [mapDelete]
  | cons p m ih =>
    obtain ⟨b, v⟩ := p
    simp only [List.map_cons, List.nodup_cons] at h
    by_cases hbk : b = k
    · simp only [mapDelete, hbk, if_true]; exact ih h.2
    · simp only [mapDelete, hbk, if_false, List.map_cons, List.nodup_cons]
      refine ⟨fun hmem => h.1 ((mem_keys_mapDelete m k b).1 hmem).1, ih h.2⟩

theorem nodup_keys_mapSet (m : List (K × Int)) (k : K) (v : Int) (h : (m.map Prod.fst).Nodup) :
    ((mapSet m k v).map Prod.fst).Nodup := by
  simp only [mapSet, List.map_cons, List.nodup_cons]
  exact ⟨fun hmem => ((mem_keys_mapDelete m k k).1 hmem).2 rfl, nodup_keys_mapDelete m k h⟩

theorem mem_keys_iff_mapGet (m : List (K × Int)) (k : K) :
    k ∈ m.map Prod.fst ↔ ∃ p, mapGet m k = some p := by
  induction m with
  | nil => simp [mapGet]
  | cons q m ih =>
    obtain ⟨b, v⟩ := q
    by_cases hbk : b = k
    · simp [mapGet, hbk]
    · have hkb : ¬ k = b := fun h => hbk h.symm
      simp [mapGet, hbk, hkb, ih]

theorem mapGet_of_mem (m : List (K × Int)) (h : (m.map Prod.fst).Nodup) (k : K) (p : Int)
    (hmem : (k, p) ∈ m) : mapGet m k = some p := by
  induction m with
  | nil => simp at hmem
  | cons q m ih =>
    obtain ⟨b, v⟩ := q
    simp only [List.map_cons, List.nodup_cons] at h
    rcases List.mem_cons.1 hmem with heq | hmem'
    · cases heq; simp [mapGet]
    · have hbk : b ≠ k := by
        intro hbk
        apply h.1
        rw [hbk]
        exact List.mem_map.2 ⟨(k, p), hmem', rfl⟩
      simp [mapGet, hbk, ih h.2 hmem']

end Builtins

/-! ## Arithmetic of the ring positions -/

theorem succ_mod_ring (n M : Nat) (hM : 1 ≤ M) :
    (n + 1) % M = if n % M + 1 = M then 0 else n % M + 1 := by
  have hlt : n % M < M := Nat.mod_lt n (by omega)
  have hdiv : M * (n / M) + n % M = n := Nat.div_add_mod n M
  split
  · next h =>
    have : n + 1 = M * (n / M + 1) := by
      rw [Nat.mul_add, Nat.mul_one]; omega
    rw [this]; exact Nat.mul_mod_right _ _
  · next h =>
    have h1 : n + 1 = M * (n / M) + (n % M + 1) := by omega
    have h2 : n % M + 1 < M := by omega
    conv_lhs => rw [h1]
    rw [Nat.mul_add_mod, Nat.mod_eq_of_lt h2]

theorem window_mod_inj (i j M : Nat) (h : i % M = j % M) (h1 : i < j + M) (h2 : j < i + M) :
    i = j := by
  rcases Nat.lt_trichotomy i j with hlt | heq | hgt
  · exfalso
    have hd : M ∣ j - i := (Nat.modEq_iff_dvd' (le_of_lt hlt)).1 h
    have := Nat.le_of_dvd (by omega) hd
    omega
  · exact heq
  · exfalso
    have hd : M ∣ i - j := (Nat.modEq_iff_dvd' (le_of_lt hgt)).1 h.symm
    have := Nat.le_of_dvd (by omega) hd
    omega

theorem sub_mod_ring (n M : Nat) (h : M ≤ n) : (n - M) % M = n % M := by
  conv_rhs => rw [← Nat.sub_add_cancel h]
  exact (Nat.add_mod_right _ _).symm

/-! ## One `Add`, unfolded -/

/-- Two positions of a list with pairwise distinct keys that hold the same key are equal. -/
theorem index_eq_of_nodup_keys {K V : Type} (as : List (K × V)) (hnd : (as.map Prod.fst).Nodup)
    (i j : Nat) (k : K) (v w : V) (hi : as[i]? = some (k, v)) (hj : as[j]? = some (k, w)) :
    i = j := by
  have hi' : (as.map Prod.fst)[i]? = some k := by rw [List.getElem?_map, hi]; rfl
  have hj' : (as.map Prod.fst)[j]? = some k := by rw [List.getElem?_map, hj]; rfl
  obtain ⟨hil, e1⟩ := List.getElem?_eq_some.1 hi'
  obtain ⟨hjl, e2⟩ := List.getElem?_eq_some.1 hj'
  exact (List.Nodup.getElem_inj_iff hnd).1 (e1.trans e2.symm)

theorem Add_of_vacant {K V : Type} [DecidableEq K] (c : fifoCache K V) (key : K) (val : V)
    (h : sliceAt c.entries c.cursor = some none) :
    c.Add key val = some (false,
      { c with
        index := mapSet c.index key c.cursor
        entries := sliceSet c.entries c.cursor (some { key := key, value := val })
        cursor := if c.cursor + 1 = c.maxSize then 0 else c.cursor + 1 }) := by
  simp [fifoCache.Add, h]

theorem Add_of_occupied {K V : Type} [DecidableEq K] (c : fifoCache K V) (key : K) (val : V) (e : entry K V)
    (h : sliceAt c.entries c.cursor = some (some e)) :
    c.Add key val = some (true,
      { c with
        index := mapSet (mapDelete c.index e.key) key c.cursor
        entries := sliceSet c.entries c.cursor (some { key := key, value := val })
        cursor := if c.cursor + 1 = c.maxSize then 0 else c.cursor + 1 }) := by
  simp [fifoCache.Add, h]

section AddStep

variable {K V : Type} [DecidableEq K] [Inhabited V]

/-- The invariant after one more `Add`, for an index `idx0` obtained from the old one by
removing the key `ek` of the overwritten slot (if it was occupied). -/
theorem Tr.add_core {M : Nat} {as : List (K × V)} {c : fifoCache K V} (h : Tr M as c)
    (k : K) (v : V) (idx0 : List (K × Int)) (ek : Option K)
    (hek : M ≤ as.length → ∃ k0 v0, as[as.length - M]? = some (k0, v0) ∧ ek = some k0)
    (hfree : as.length < M → ek = none)
    (hnd : (idx0.map Prod.fst).Nodup)
    (hs : ∀ k' p, mapGet idx0 k' = some p → mapGet c.index k' = some p ∧ ek ≠ some k')
    (hc : ∀ k' p, mapGet c.index k' = some p → ek ≠ some k' → mapGet idx0 k' = some p) :
    Tr M (as ++ [(k, v)])
      { c with
        index := mapSet idx0 k c.cursor
        entries := sliceSet c.entries c.cursor (some { key := k, value := v })
        cursor := if c.cursor + 1 = c.maxSize then 0 else c.cursor + 1 } := by
  have hM := h.pos
  have hlt : as.length % M < M := Nat.mod_lt _ (by omega)
  have hlen : (as ++ [(k, v)]).length = as.length + 1 := by simp
  have hcur := h.cursor_eq
  have hent : sliceSet c.entries c.cursor (some { key := k, value := v })
      = c.entries.set (as.length % M) (some { key := k, value := v }) := by
    rw [hcur, sliceSet_natCast]
  refine
    { pos := hM
      maxSize_eq := h.maxSize_eq
      length_eq := ?_
      cursor_eq := ?_
      blank_eq := h.blank_eq
      keys_nodup := nodup_keys_mapSet _ _ _ hnd
      recent := ?_
      vacant := ?_
      filled := ?_
      index_sound := ?_
      index_complete := ?_
      newest := ?_ }
  · show (sliceSet c.entries c.cursor _).length = M
    rw [hent, List.length_set, h.length_eq]
  · show (if c.cursor + 1 = c.maxSize then 0 else c.cursor + 1) = _
    rw [hlen, succ_mod_ring _ _ hM, hcur, h.maxSize_eq]
    by_cases hw : as.length % M + 1 = M
    · have hw' : ((as.length % M : Nat) : Int) + 1 = (M : Int) := by exact_mod_cast hw
      rw [if_pos hw, if_pos hw']
      rfl
    · have hw' : ¬ ((as.length % M : Nat) : Int) + 1 = (M : Int) := by exact_mod_cast hw
      rw [if_neg hw, if_neg hw']
      rfl
  · intro i k' v' hi hwin
    show (sliceSet c.entries c.cursor _)[i % M]? = _
    rw [hent]
    rw [hlen] at hwin
    rcases Nat.lt_trichotomy i as.length with hlt' | heq | hgt
    · rw [List.getElem?_append_left hlt'] at hi
      have hne : as.length % M ≠ i % M := by
        intro hmod
        have := window_mod_inj i as.length M hmod.symm (by omega) (by omega)
        omega
      rw [List.getElem?_set_ne hne]
      exact h.recent i k' v' hi (by omega)
    · subst heq
      rw [List.getElem?_concat_length] at hi
      cases hi
      rw [List.getElem?_set_self (by rw [h.length_eq]; exact hlt)]
    · rw [List.getElem?_eq_none (by rw [hlen]; omega)] at hi
      cases hi
  · intro j hj hjM
    show (sliceSet c.entries c.cursor _)[j]? = _
    rw [hent]
    rw [hlen] at hj
    have hmod : as.length % M = as.length := Nat.mod_eq_of_lt (by omega)
    rw [List.getElem?_set_ne (by omega)]
    exact h.vacant j (by omega) hjM
  · intro j hj hjM
    show ∃ e, (sliceSet c.entries c.cursor _)[j]? = some (some e)
    rw [hent]
    rw [hlen] at hj
    by_cases hjc : as.length % M = j
    · subst hjc
      exact ⟨_, List.getElem?_set_self (by rw [h.length_eq]; exact hlt)⟩
    · rw [List.getElem?_set_ne hjc]
      have hjn : j < as.length := by
        by_contra hcon
        have hjeq : j = as.length := by omega
        rw [hjeq] at hjc hjM
        exact hjc (Nat.mod_eq_of_lt hjM)
      exact h.filled j hjn hjM
  · intro k' p hp
    show ∃ i v', (as ++ [(k, v)])[i]? = some (k', v') ∧ (as ++ [(k, v)]).length ≤ i + M ∧ _
    have hp' : mapGet (mapSet idx0 k c.cursor) k' = some p := hp
    rw [mapGet_mapSet] at hp'
    by_cases hk : k' = k
    · subst hk
      simp only [if_true, Option.some.injEq] at hp'
      refine ⟨as.length, v, List.getElem?_concat_length _ _, by rw [hlen]; omega, ?_, ?_⟩
      · rw [← hp', hcur]
      · intro i' v' hi'
        rw [List.getElem?_eq_none (by rw [hlen]; omega)]
        simp
    · simp only [hk, if_false] at hp'
      obtain ⟨hold, hne⟩ := hs k' p hp'
      obtain ⟨i, v', hi, hwin, hpi, hlater⟩ := h.index_sound k' p hold
      have hil : i < as.length := by
        by_contra hcon
        rw [List.getElem?_eq_none (by omega)] at hi
        cases hi
      refine ⟨i, v', by rw [List.getElem?_append_left hil]; exact hi, ?_, hpi, ?_⟩
      · rw [hlen]
        by_contra hcon
        have hfull : M ≤ as.length := by omega
        obtain ⟨k0, v0, hk0, hek0⟩ := hek hfull
        have hieq : i = as.length - M := by omega
        rw [hieq, hk0] at hi
        cases hi
        exact hne hek0
      · intro i' v'' hii'
        rcases Nat.lt_trichotomy i' as.length with hlt' | heq | hgt
        · rw [List.getElem?_append_left hlt']
          exact hlater i' v'' hii'
        · subst heq
          rw [List.getElem?_concat_length]
          intro hcon
          cases hcon
          exact hk rfl
        · rw [List.getElem?_eq_none (by rw [hlen]; omega)]
          simp
  · intro hnodup i k' v' hi hwin
    show mapGet (mapSet idx0 k c.cursor) k' = _
    rw [hlen] at hwin
    rw [mapGet_mapSet]
    have hnd' : (as.map Prod.fst ++ [k]).Nodup := by simpa using hnodup
    have hnd_as : (as.map Prod.fst).Nodup := (List.nodup_append.1 hnd').1
    have hk_new : k ∉ as.map Prod.fst := by
      intro hmem
      exact (List.nodup_append.1 hnd').2.2 hmem (List.mem_singleton.2 rfl)
    rcases Nat.lt_trichotomy i as.length with hlt' | heq | hgt
    · rw [List.getElem?_append_left hlt'] at hi
      have hmem : k' ∈ as.map Prod.fst :=
        List.mem_map.2 ⟨(k', v'), List.getElem?_mem hi, rfl⟩
      have hk : k' ≠ k := fun hkk => hk_new (hkk ▸ hmem)
      simp only [hk, if_false]
      have hold := h.index_complete hnd_as i k' v' hi (by omega)
      refine hc k' _ hold ?_
      intro hekk
      by_cases hfull : M ≤ as.length
      · obtain ⟨k0, v0, hk0, hek0⟩ := hek hfull
        rw [hek0] at hekk
        have hkk : k0 = k' := Option.some.inj hekk
        rw [hkk] at hk0
        have h0l : as.length - M < as.length := by omega
        have hidx : (as.map Prod.fst)[as.length - M]? = some k' := by
          rw [List.getElem?_map, hk0]; rfl
        have hidx' : (as.map Prod.fst)[i]? = some k' := by
          rw [List.getElem?_map, hi]; rfl
        have hii : as.length - M = i := by
          have hl1 : as.length - M < (as.map Prod.fst).length := by simpa using h0l
          have hl2 : i < (as.map Prod.fst).length := by simpa using hlt'
          have e1 := (List.getElem?_eq_some.1 hidx).2
          have e2 := (List.getElem?_eq_some.1 hidx').2
          exact (List.Nodup.getElem_inj_iff hnd_as).1 (e1.trans e2.symm)
        omega
      · rw [hfree (by omega)] at hekk
        cases hekk
    · subst heq
      rw [List.getElem?_concat_length] at hi
      cases hi
      simp only [if_true]
      rw [hcur]
    · rw [List.getElem?_eq_none (by rw [hlen]; omega)] at hi
      cases hi
  · intro k' v' hlast
    show mapGet (mapSet idx0 k c.cursor) k' = _
    rw [List.getLast?_concat] at hlast
    cases hlast
    rw [mapGet_mapSet, hlen, hcur]
    simp

/-- One `Add` in a state described by `Tr`: it returns, its result tells whether the ring was
already full, and the new state is described by the extended history. -/
theorem Tr.add {M : Nat} {as : List (K × V)} {c : fifoCache K V} (h : Tr M as c)
    (k : K) (v : V) :
    ∃ c', c.Add k v = some (decide (M ≤ as.length), c') ∧ Tr M (as ++ [(k, v)]) c' := by
  have hM := h.pos
  by_cases hn : M ≤ as.length
  · have hi : as.length - M < as.length := by omega
    obtain ⟨k0, v0, hk0⟩ : ∃ k0 v0, as[as.length - M]? = some (k0, v0) :=
      ⟨(as[as.length - M]).1, (as[as.length - M]).2, List.getElem?_eq_getElem hi⟩
    have hslot := h.recent _ k0 v0 hk0 (by omega)
    rw [sub_mod_ring _ _ hn] at hslot
    have hsl : sliceAt c.entries c.cursor = some (some { key := k0, value := v0 }) := by
      rw [h.cursor_eq, sliceAt_natCast]; exact hslot
    refine ⟨_, ?_, h.add_core k v (mapDelete c.index k0) (some k0)
      (fun _ => ⟨k0, v0, hk0, rfl⟩) (fun hlt => by omega)
      (nodup_keys_mapDelete _ _ h.keys_nodup) ?_ ?_⟩
    · rw [Add_of_occupied c k v _ hsl]
      simp [hn]
    · intro k' p hp
      rw [mapGet_mapDelete] at hp
      by_cases hk : k' = k0
      · simp [hk] at hp
      · simp only [hk, if_false] at hp
        exact ⟨hp, fun hcon => hk (Option.some.inj hcon).symm⟩
    · intro k' p hp hne
      rw [mapGet_mapDelete]
      have hk : ¬ k' = k0 := fun hcon => hne (by rw [hcon])
      simp only [hk, if_false]
      exact hp
  · have hslot := h.vacant as.length (le_refl _) (by omega)
    have hsl : sliceAt c.entries c.cursor = some none := by
      rw [h.cursor_eq, sliceAt_natCast, Nat.mod_eq_of_lt (by omega)]; exact hslot
    refine ⟨_, ?_, h.add_core k v c.index none (fun hfull => absurd hfull hn) (fun _ => rfl)
      h.keys_nodup ?_ ?_⟩
    · rw [Add_of_vacant c k v hsl]
      simp [hn]
    · intro k' p hp
      exact ⟨hp, by simp⟩
    · intro k' p hp _
      exact hp

/-- A hit: `Get` returns the value of the last `Add` of that key, which is among the last
`M` calls of `Add`. -/
theorem Tr.get_hit {M : Nat} {as : List (K × V)} {c : fifoCache K V} (h : Tr M as c)
    (k : K) (p : Int) (hp : mapGet c.index k = some p) :
    ∃ i v, as[i]? = some (k, v) ∧ as.length ≤ i + M ∧ (∀ i' v', i < i' → as[i']? ≠ some (k, v')) ∧
      c.Get k = some ((v, true), c) := by
  obtain ⟨i, v, hi, hwin, hpi, hlater⟩ := h.index_sound k p hp
  refine ⟨i, v, hi, hwin, hlater, ?_⟩
  have hslot := h.recent i k v hi hwin
  have hsl : sliceAt c.entries p = some (some { key := k, value := v }) := by
    rw [hpi, sliceAt_natCast]; exact hslot
  simp [fifoCache.Get, hp, hsl]

/-- A miss: `Get` returns the blank value. -/
theorem Tr.get_miss {M : Nat} {as : List (K × V)} {c : fifoCache K V} (h : Tr M as c)
    (k : K) (hp : mapGet c.index k = none) :
    c.Get k = some ((default, false), c) := by
  simp [fifoCache.Get, hp, h.blank_eq]

/-- Keys that `Get` finds are exactly the keys of the index. -/
theorem Tr.found_iff {M : Nat} {as : List (K × V)} {c : fifoCache K V} (h : Tr M as c)
    (k : K) : found c k = true ↔ ∃ p, mapGet c.index k = some p := by
  cases hp : mapGet c.index k with
  | none => simp [found, h.get_miss k hp]
  | some p =>
    obtain ⟨i, v, _, _, _, hget⟩ := h.get_hit k p hp
    simp [found, hget]

/-- `Get` never panics and gives the state back as it was. -/
theorem Tr.get {M : Nat} {as : List (K × V)} {c : fifoCache K V} (h : Tr M as c) (k : K) :
    ∃ v ok, c.Get k = some ((v, ok), c) := by
  cases hp : mapGet c.index k with
  | none => exact ⟨default, false, h.get_miss k hp⟩
  | some p =>
    obtain ⟨i, v, _, _, _, hget⟩ := h.get_hit k p hp
    exact ⟨v, true, hget⟩

/-- With pairwise distinct keys, each of the last `M` keys added is found, with its value. -/
theorem Tr.get_recent {M : Nat} {as : List (K × V)} {c : fifoCache K V} (h : Tr M as c)
    (hnd : (as.map Prod.fst).Nodup) (i : Nat) (k : K) (v : V) (hi : as[i]? = some (k, v))
    (hwin : as.length ≤ i + M) : c.Get k = some ((v, true), c) := by
  have hp := h.index_complete hnd i k v hi hwin
  have hslot := h.recent i k v hi hwin
  have hsl : sliceAt c.entries ((i % M : Nat) : Int) = some (some { key := k, value := v }) := by
    rw [sliceAt_natCast]; exact hslot
  simp only [fifoCache.Get, hp, hsl]

/-- With pairwise distinct keys, a key added more than `M` calls of `Add` ago is gone. -/
theorem Tr.get_old {M : Nat} {as : List (K × V)} {c : fifoCache K V} (h : Tr M as c)
    (hnd : (as.map Prod.fst).Nodup) (i : Nat) (k : K) (v : V) (hi : as[i]? = some (k, v))
    (hold : i + M < as.length) : c.Get k = some ((default, false), c) := by
  apply h.get_miss
  cases hp : mapGet c.index k with
  | none => rfl
  | some p =>
    exfalso
    obtain ⟨j, w, hj, hwin, _, _⟩ := h.index_sound k p hp
    have := index_eq_of_nodup_keys as hnd i j k v w hi hj
    omega

/-- A key that was never added is not found. -/
theorem Tr.get_absent {M : Nat} {as : List (K × V)} {c : fifoCache K V} (h : Tr M as c)
    (k : K) (hk : k ∉ as.map Prod.fst) : c.Get k = some ((default, false), c) := by
  apply h.get_miss
  cases hp : mapGet c.index k with
  | none => rfl
  | some p =>
    exfalso
    obtain ⟨j, w, hj, _, _, _⟩ := h.index_sound k p hp
    exact hk (List.mem_map.2 ⟨(k, w), List.getElem?_mem hj, rfl⟩)

/-- Any sequence of calls runs to the end, and only its `Add` calls extend the history. -/
theorem Tr.run_calls {M : Nat} {as : List (K × V)} {c : fifoCache K V} (h : Tr M as c)
    (calls : List (Call K V)) :
    ∃ rs c', fifo.run c calls = some (rs, c') ∧ Tr M (as ++ addsOf calls) c' := by
  induction calls generalizing as c with
  | nil => exact ⟨[], c, rfl, by simpa [addsOf] using h⟩
  | cons call rest ih =>
    cases call with
    | add k v =>
      obtain ⟨c1, hadd, h1⟩ := h.add k v
      obtain ⟨rs, c2, hrun, h2⟩ := ih h1
      refine ⟨Ret.added (decide (M ≤ as.length)) :: rs, c2, ?_, ?_⟩
      · simp [fifo.run, step, hadd, hrun]
      · simpa [addsOf] using h2
    | get k =>
      obtain ⟨v, ok, hget⟩ := h.get k
      obtain ⟨rs, c2, hrun, h2⟩ := ih h
      refine ⟨Ret.got v ok :: rs, c2, ?_, ?_⟩
      · simp [fifo.run, step, hget, hrun]
      · simpa [addsOf] using h2

/-- A sequence of `Add` calls: the `j`-th of them (from 0) evicts exactly when `M` calls of
`Add` came before it. -/
theorem Tr.run_adds {M : Nat} {as : List (K × V)} {c : fifoCache K V} (h : Tr M as c)
    (kvs : List (K × V)) :
    ∃ c', fifo.run c (kvs.map (fun kv => Call.add kv.1 kv.2))
        = some ((List.range kvs.length).map (fun j => Ret.added (decide (M ≤ as.length + j))), c') ∧
      Tr M (as ++ kvs) c' := by
  induction kvs generalizing as c with
  | nil => exact ⟨c, rfl, by simpa using h⟩
  | cons kv rest ih =>
    obtain ⟨k, v⟩ := kv
    obtain ⟨c1, hadd, h1⟩ := h.add k v
    obtain ⟨c2, hrun, h2⟩ := ih h1
    refine ⟨c2, ?_, by simpa using h2⟩
    simp only [List.map_cons, fifo.run, step, hadd, hrun, List.length_cons,
      List.range_succ_eq_map, Nat.add_zero, List.map_map]
    congr 3
    apply List.map_congr_left
    intro j _
    simp only [Function.comp, List.length_append, List.length_singleton]
    congr 2
    apply propext
    constructor <;> intro hx <;> omega

end AddStep

/-! ## The fresh cache -/

theorem capacity_pos (maxSize : Int) : 1 ≤ capacity maxSize := by
  unfold capacity
  split <;> omega

theorem capacity_cast (maxSize : Int) :
    ((capacity maxSize : Nat) : Int) = if maxSize ≤ 0 then 10 else maxSize := by
  unfold capacity
  split <;> omega

theorem capacity_of_pos (M : Nat) (h : 1 ≤ M) : capacity (M : Int) = M := by
  unfold capacity
  split <;> omega

theorem capacity_of_nonpos (maxSize : Int) (h : maxSize ≤ 0) : capacity maxSize = 10 := by
  unfold capacity
  simp [h]

/-- What `New` returns, with the capacity spelled out. -/
theorem New_eq {K V : Type} [Inhabited V] (maxSize : Int) :
    (New maxSize : Except String (fifoCache K V)) = Except.ok
      { blank := default
        cursor := 0
        index := []
        maxSize := (capacity maxSize : Int)
        entries := List.replicate (capacity maxSize) none } := by
  rw [capacity_cast]
  rfl

/-- The cache returned by `New` is described by the empty history. -/
theorem Tr_New {K V : Type} [DecidableEq K] [Inhabited V] (maxSize : Int) :
    ∃ c0 : fifoCache K V, New maxSize = Except.ok c0 ∧ Tr (capacity maxSize) [] c0 := by
  refine ⟨_, New_eq maxSize, ?_⟩
  refine
    { pos := capacity_pos maxSize
      maxSize_eq := rfl
      length_eq := by simp
      cursor_eq := by simp
      blank_eq := rfl
      keys_nodup := by simp
      recent := by intro i k v hi; simp at hi
      vacant := by
        intro j _ hj
        simp [List.getElem?_replicate, hj]
      filled := by intro j hj; simp at hj
      index_sound := by intro k p hp; simp [mapGet] at hp
      index_complete := by intro _ i k v hi; simp at hi
      newest := by intro k v hl; simp at hl }

/-- `New` followed by any calls: everything returns, and the final state is described by the
`Add` calls made. -/
theorem runFresh_Tr {K V : Type} [DecidableEq K] [Inhabited V] (maxSize : Int)
    (calls : List (Call K V)) :
    ∃ rs c, runFresh maxSize calls = some (rs, c) ∧ Tr (capacity maxSize) (addsOf calls) c := by
  obtain ⟨c0, hnew, h0⟩ := Tr_New (K := K) (V := V) maxSize
  obtain ⟨rs, c, hrun, h⟩ := h0.run_calls calls
  exact ⟨rs, c, by simp [runFresh, hnew, hrun], by simpa using h⟩

/-- `New` followed by `Add` calls only, with the results spelled out. -/
theorem runFresh_adds {K V : Type} [DecidableEq K] [Inhabited V] (maxSize : Int)
    (kvs : List (K × V)) :
    ∃ c, runFresh maxSize (kvs.map (fun kv => Call.add kv.1 kv.2))
        = some ((List.range kvs.length).map
            (fun j => Ret.added (decide (capacity maxSize ≤ j))), c) ∧
      Tr (capacity maxSize) kvs c := by
  obtain ⟨c0, hnew, h0⟩ := Tr_New (K := K) (V := V) maxSize
  obtain ⟨c, hrun, h⟩ := h0.run_adds kvs
  refine ⟨c, ?_, by simpa using h⟩
  simp only [runFresh, hnew, hrun, List.length_nil, Nat.zero_add]

/-! ## Construction with the allocation limit -/

theorem makeSlice_of_le {α : Type} (maxLen : Nat) (maxSize : Int)
    (h : capacity maxSize ≤ maxLen) :
    (makeSlice maxLen (if maxSize ≤ 0 then 10 else maxSize) : Option (List (Option α)))
      = some (List.replicate (capacity maxSize) none) := by
  have hcast := capacity_cast maxSize
  have hpos := capacity_pos maxSize
  have hcond : ¬ ((if maxSize ≤ 0 then 10 else maxSize) < 0 ∨
      (maxLen : Int) < (if maxSize ≤ 0 then 10 else maxSize)) := by
    rw [← hcast]
    omega
  unfold makeSlice
  rw [if_neg hcond]
  rfl

theorem makeSlice_of_gt {α : Type} (maxLen : Nat) (maxSize : Int)
    (h : maxLen < capacity maxSize) :
    (makeSlice maxLen (if maxSize ≤ 0 then 10 else maxSize) : Option (List (Option α)))
      = none := by
  have hcast := capacity_cast maxSize
  have hcond : (if maxSize ≤ 0 then 10 else maxSize) < 0 ∨
      (maxLen : Int) < (if maxSize ≤ 0 then 10 else maxSize) := by
    rw [← hcast]
    omega
  unfold makeSlice
  rw [if_pos hcond]

/-- When the slots can be allocated, `NewAlloc` returns what `New` describes. -/
theorem NewAlloc_eq_New {K V : Type} [Inhabited V] (maxLen : Nat) (maxSize : Int)
    (h : capacity maxSize ≤ maxLen) :
    (NewAlloc maxLen maxSize : Option (Except String (fifoCache K V))) = some (New maxSize) := by
  unfold NewAlloc
  simp only [makeSlice_of_le maxLen maxSize h]
  rfl

/-- When the slots cannot be allocated, `NewAlloc` panics. -/
theorem NewAlloc_of_gt {K V : Type} [Inhabited V] (maxLen : Nat) (maxSize : Int)
    (h : maxLen < capacity maxSize) :
    (NewAlloc maxLen maxSize : Option (Except String (fifoCache K V))) = none := by
  unfold NewAlloc
  simp only [makeSlice_of_gt maxLen maxSize h]

/-- `NewAlloc` has no error return. -/
theorem NewAlloc_ne_error {K V : Type} [Inhabited V] (maxLen : Nat) (maxSize : Int)
    (err : String) :
    (NewAlloc maxLen maxSize : Option (Except String (fifoCache K V)))
      ≠ some (Except.error err) := by
  by_cases h : capacity maxSize ≤ maxLen
  · rw [NewAlloc_eq_New maxLen maxSize h, New_eq]
    intro hcon
    cases Option.some.inj hcon
  · rw [NewAlloc_of_gt maxLen maxSize (by omega)]
    intro hcon
    cases hcon

/-! ## Which keys are found -/

section Found

variable {K V : Type} [DecidableEq K] [Inhabited V]

/-- With pairwise distinct keys, the keys found are those of the last `M` calls of `Add`. -/
theorem Tr.found_iff_window {M : Nat} {as : List (K × V)} {c : fifoCache K V} (h : Tr M as c)
    (hnd : (as.map Prod.fst).Nodup) (k : K) :
    found c k = true ↔ ∃ i v, as[i]? = some (k, v) ∧ as.length ≤ i + M := by
  constructor
  · intro hf
    obtain ⟨p, hp⟩ := (h.found_iff k).1 hf
    obtain ⟨i, v, hi, hwin, _, _⟩ := h.index_sound k p hp
    exact ⟨i, v, hi, hwin⟩
  · rintro ⟨i, v, hi, hwin⟩
    simp [found, h.get_recent hnd i k v hi hwin]

theorem mem_lastN_iff {α : Type} (t : Nat) (l : List α) (a : α) :
    a ∈ lastN t l ↔ ∃ i, l[i]? = some a ∧ l.length ≤ i + t := by
  unfold lastN
  rw [List.mem_iff_getElem?]
  constructor
  · rintro ⟨m, hm⟩
    rw [List.getElem?_drop] at hm
    exact ⟨l.length - t + m, hm, by omega⟩
  · rintro ⟨i, hi, hwin⟩
    refine ⟨i - (l.length - t), ?_⟩
    rw [List.getElem?_drop]
    have : l.length - t + (i - (l.length - t)) = i := by omega
    rw [this]
    exact hi

/-- With pairwise distinct keys, the keys found are exactly the last `min n M` keys added. -/
theorem Tr.found_iff_lastN {M : Nat} {as : List (K × V)} {c : fifoCache K V} (h : Tr M as c)
    (hnd : (as.map Prod.fst).Nodup) (k : K) :
    found c k = true ↔ k ∈ lastN (min as.length M) (as.map Prod.fst) := by
  rw [h.found_iff_window hnd, mem_lastN_iff]
  constructor
  · rintro ⟨i, v, hi, hwin⟩
    have hil : i < as.length := by
      by_contra hcon
      rw [List.getElem?_eq_none (by omega)] at hi
      cases hi
    refine ⟨i, by rw [List.getElem?_map, hi]; rfl, ?_⟩
    simp only [List.length_map]
    omega
  · rintro ⟨i, hi, hwin⟩
    rw [List.getElem?_map] at hi
    cases hkv : as[i]? with
    | none => rw [hkv] at hi; cases hi
    | some kv =>
      obtain ⟨k', v⟩ := kv
      rw [hkv] at hi
      have hk : k' = k := by simpa using hi
      subst hk
      simp only [List.length_map] at hwin
      exact ⟨i, v, hkv, by omega⟩

/-- The index never holds more keys than there are slots. -/
theorem Tr.index_length_le {M : Nat} {as : List (K × V)} {c : fifoCache K V} (h : Tr M as c) :
    c.index.length ≤ M := by
  have hnd : c.index.Nodup := List.Nodup.of_map Prod.fst h.keys_nodup
  have hpos : ∀ q ∈ c.index, ∃ i v, as[i]? = some (q.1, v) ∧ as.length ≤ i + M ∧
      q.2 = ((i % M : Nat) : Int) := by
    intro q hq
    obtain ⟨k, p⟩ := q
    have hp := mapGet_of_mem c.index h.keys_nodup k p hq
    obtain ⟨i, v, hi, hwin, hpi, _⟩ := h.index_sound k p hp
    exact ⟨i, v, hi, hwin, hpi⟩
  have hinj : ∀ x ∈ c.index, ∀ y ∈ c.index, x.2.toNat = y.2.toNat → x = y := by
    intro x hx y hy hxy
    obtain ⟨i, v, hi, hwi, hpi⟩ := hpos x hx
    obtain ⟨j, w, hj, hwj, hpj⟩ := hpos y hy
    have hil : i < as.length := by
      by_contra hcon
      rw [List.getElem?_eq_none (by omega)] at hi
      cases hi
    have hjl : j < as.length := by
      by_contra hcon
      rw [List.getElem?_eq_none (by omega)] at hj
      cases hj
    rw [hpi, hpj] at hxy
    simp only [Int.toNat_ofNat] at hxy
    have hij := window_mod_inj i j M hxy (by omega) (by omega)
    subst hij
    rw [hi] at hj
    have hkey : x.1 = y.1 := by
      have := Option.some.inj hj
      exact (Prod.mk.inj this).1
    exact Prod.ext hkey (by rw [hpi, hpj])
  have hvals : (c.index.map (fun q => q.2.toNat)).Nodup := List.Nodup.map_on hinj hnd
  have hsub : c.index.map (fun q => q.2.toNat) ⊆ List.range M := by
    intro x hx
    obtain ⟨q, hq, rfl⟩ := List.mem_map.1 hx
    obtain ⟨i, v, _, _, hpi⟩ := hpos q hq
    rw [hpi]
    simp only [Int.toNat_ofNat]
    exact List.mem_range.2 (Nat.mod_lt _ (by have := h.pos; omega))
  have hle := (List.subperm_of_subset hvals hsub).length_le
  simpa using hle

end Found

/-! ## Results lists -/

theorem results_before_full {V : Type} (M n : Nat) (h : n ≤ M) :
    (List.range n).map (fun j => (Ret.added (decide (M ≤ j)) : Ret V))
      = List.replicate n (Ret.added false) := by
  rw [List.eq_replicate_iff]
  refine ⟨by simp, ?_⟩
  intro b hb
  obtain ⟨j, hj, rfl⟩ := List.mem_map.1 hb
  have hjn : j < n := List.mem_range.1 hj
  have : ¬ M ≤ j := by omega
  simp [this]

theorem results_once_full {V : Type} (M : Nat) :
    (List.range (M + 1)).map (fun j => (Ret.added (decide (M ≤ j)) : Ret V))
      = List.replicate M (Ret.added false) ++ [Ret.added true] := by
  rw [List.range_succ, List.map_append, results_before_full M M (le_refl _)]
  simp

/-! ## Slices after a write, and calls that leave the state alone -/

theorem sliceAt_sliceSet_self {α : Type} (xs : List α) (i : Int) (x y : α)
    (h : sliceAt xs i = some y) : sliceAt (sliceSet xs i x) i = some x := by
  unfold sliceAt at h
  unfold sliceAt sliceSet
  by_cases hi : i < 0
  · simp [hi] at h
  · simp only [hi, if_false] at h ⊢
    have hlt : i.toNat < xs.length := by
      by_contra hcon
      rw [List.getElem?_eq_none (by omega)] at h
      cases h
    exact List.getElem?_set_self hlt

theorem sliceAt_sliceSet_ne {α : Type} (xs : List α) (i j : Int) (x : α) (h : j ≠ i) :
    sliceAt (sliceSet xs i x) j = sliceAt xs j := by
  unfold sliceAt sliceSet
  by_cases hi : i < 0
  · simp [hi]
  · by_cases hj : j < 0
    · simp [hj]
    · simp only [hi, hj, if_false]
      exact List.getElem?_set_ne (by omega)

theorem length_sliceSet {α : Type} (xs : List α) (i : Int) (x : α) :
    (sliceSet xs i x).length = xs.length := by
  unfold sliceSet
  split
  · rfl
  · exact List.length_set _ _ _

/-- `Get` gives the receiver back as it was, in every state. -/
theorem Get_state {K V : Type} [DecidableEq K] (c c' : fifoCache K V) (key : K) (r : V × Bool)
    (h : c.Get key = some (r, c')) : c' = c := by
  unfold fifoCache.Get at h
  split at h
  · exact (Prod.mk.inj (Option.some.inj h)).2.symm
  · split at h
    · cases h
    · cases h
    · exact (Prod.mk.inj (Option.some.inj h)).2.symm

section Items

variable {K V : Type} [DecidableEq K] [Inhabited V]

/-- One call in a state described by `Tr`. -/
theorem Tr.step_call {M : Nat} {as : List (K × V)} {c : fifoCache K V} (h : Tr M as c)
    (call : Call K V) :
    ∃ r c1, step c call = some (r, c1) ∧ Tr M (as ++ addsOf [call]) c1 := by
  cases call with
  | add k v =>
    obtain ⟨c1, hadd, h1⟩ := h.add k v
    exact ⟨Ret.added (decide (M ≤ as.length)), c1, by simp [step, hadd], by simpa [addsOf] using h1⟩
  | get k =>
    obtain ⟨v, ok, hget⟩ := h.get k
    exact ⟨Ret.got v ok, c, by simp [step, hget], by simpa [addsOf] using h⟩

/-- A call sequence with calls of `Get` inserted: the calls of the sequence itself return
what they return without the inserted ones, and the final state is the same. -/
theorem Tr.run_items {M : Nat} {as : List (K × V)} {c : fifoCache K V} (h : Tr M as c)
    (items : List (Item K V)) :
    ∃ rs rs0 c', fifo.run c (withExtraGets items) = some (rs, c') ∧
      fifo.run c (withoutExtraGets items) = some (rs0, c') ∧ origResults items rs = rs0 := by
  induction items generalizing as c with
  | nil => exact ⟨[], [], c, rfl, rfl, rfl⟩
  | cons item rest ih =>
    cases item with
    | orig call =>
      obtain ⟨r, c1, hstep, h1⟩ := h.step_call call
      obtain ⟨rs, rs0, c', hrun, hrun0, hres⟩ := ih h1
      refine ⟨r :: rs, r :: rs0, c', ?_, ?_, ?_⟩
      · simp [withExtraGets, fifo.run, hstep, hrun]
      · simp [withoutExtraGets, fifo.run, hstep, hrun0]
      · simp [origResults, hres]
    | extraGet key =>
      obtain ⟨v, ok, hget⟩ := h.get key
      obtain ⟨rs, rs0, c', hrun, hrun0, hres⟩ := ih h
      refine ⟨Ret.got v ok :: rs, rs0, c', ?_, ?_, ?_⟩
      · simp [withExtraGets, fifo.run, step, hget, hrun]
      · simpa [withoutExtraGets] using hrun0
      · simp [origResults, hres]

end Items

/-! ## Occupied slots, ring positions and the adapter -/

theorem window_has_position (n M j : Nat) (hM : 1 ≤ M) (hj : j < M) (hjn : j < n) :
    ∃ i, i < n ∧ n ≤ i + M ∧ i % M = j := by
  by_cases hn : n ≤ M
  · exact ⟨j, hjn, by omega, Nat.mod_eq_of_lt hj⟩
  · have hdiv : M * ((n - M) / M) + (n - M) % M = n - M := Nat.div_add_mod (n - M) M
    have hr : (n - M) % M < M := Nat.mod_lt _ (by omega)
    by_cases hjr : (n - M) % M ≤ j
    · refine ⟨M * ((n - M) / M) + j, by omega, by omega, ?_⟩
      rw [Nat.mul_add_mod, Nat.mod_eq_of_lt hj]
    · have e : M * ((n - M) / M + 1) + j = M * ((n - M) / M) + M + j := by
        rw [Nat.mul_succ]
      refine ⟨M * ((n - M) / M + 1) + j, by omega, by omega, ?_⟩
      rw [Nat.mul_add_mod, Nat.mod_eq_of_lt hj]

theorem countP_isSome_of_prefix {α : Type} (l : List (Option α)) (t : Nat)
    (hfill : ∀ j, j < t → ∃ e, l[j]? = some (some e))
    (hvac : ∀ j, t ≤ j → j < l.length → l[j]? = some none) :
    l.countP (fun s => s.isSome) = t := by
  induction l generalizing t with
  | nil =>
    cases t with
    | zero => rfl
    | succ t' =>
      obtain ⟨e, he⟩ := hfill 0 (by omega)
      simp at he
  | cons x xs ih =>
    cases t with
    | zero =>
      have hx := hvac 0 (le_refl _) (by simp)
      simp only [List.getElem?_cons_zero, Option.some.injEq] at hx
      subst hx
      have hxs : xs.countP (fun s => s.isSome) = 0 := by
        apply ih 0
        · intro j hj
          omega
        · intro j _ hjl
          have := hvac (j + 1) (by omega) (by simpa using hjl)
          simpa using this
      rw [List.countP_cons, hxs]
      simp
    | succ t' =>
      obtain ⟨e, he⟩ := hfill 0 (by omega)
      simp only [List.getElem?_cons_zero, Option.some.injEq] at he
      subst he
      have hxs : xs.countP (fun s => s.isSome) = t' := by
        apply ih t'
        · intro j hj
          obtain ⟨e', he'⟩ := hfill (j + 1) (by omega)
          exact ⟨e', by simpa using he'⟩
        · intro j hj hjl
          have := hvac (j + 1) (by omega) (by simpa using hjl)
          simpa using this
      rw [List.countP_cons, hxs]
      simp

section Occupancy

variable {K V : Type} [DecidableEq K] [Inhabited V]

/-- After `Add(k, v)` the key `k` is found with the value `v`. -/
theorem Tr.get_newest {M : Nat} {as : List (K × V)} {c : fifoCache K V} (k : K) (v : V)
    (h : Tr M (as ++ [(k, v)]) c) : c.Get k = some ((v, true), c) := by
  have hp := h.newest k v (List.getLast?_concat _)
  have hslot := h.recent as.length k v (List.getElem?_concat_length _ _)
    (by have := h.pos; simp; omega)
  have hsl : sliceAt c.entries (((as ++ [(k, v)]).length - 1) % M : Nat)
      = some (some { key := k, value := v }) := by
    rw [sliceAt_natCast]
    simpa using hslot
  simp only [fifoCache.Get, hp, hsl]

/-- The number of occupied slots is the number of calls of `Add`, capped by the capacity. -/
theorem Tr.occupied_count {M : Nat} {as : List (K × V)} {c : fifoCache K V} (h : Tr M as c) :
    c.entries.countP (fun s => s.isSome) = min as.length M := by
  apply countP_isSome_of_prefix
  · intro j hj
    exact h.filled j (by omega) (by omega)
  · intro j hj hjl
    rw [h.length_eq] at hjl
    exact h.vacant j (by omega) hjl

/-- The index holds at most as many keys as there are occupied slots. -/
theorem Tr.index_length_le_min {M : Nat} {as : List (K × V)} {c : fifoCache K V}
    (h : Tr M as c) : c.index.length ≤ min as.length M := by
  have hM := h.pos
  have hnd : c.index.Nodup := List.Nodup.of_map Prod.fst h.keys_nodup
  have hpos : ∀ q ∈ c.index, ∃ i v, as[i]? = some (q.1, v) ∧ i < as.length ∧
      as.length ≤ i + M ∧ q.2 = ((i % M : Nat) : Int) := by
    intro q hq
    obtain ⟨k, p⟩ := q
    have hp := mapGet_of_mem c.index h.keys_nodup k p hq
    obtain ⟨i, v, hi, hwin, hpi, _⟩ := h.index_sound k p hp
    have hil : i < as.length := by
      by_contra hcon
      rw [List.getElem?_eq_none (by omega)] at hi
      cases hi
    exact ⟨i, v, hi, hil, hwin, hpi⟩
  have hinj : ∀ x ∈ c.index, ∀ y ∈ c.index, x.2.toNat = y.2.toNat → x = y := by
    intro x hx y hy hxy
    obtain ⟨i, v, hi, hil, hwi, hpi⟩ := hpos x hx
    obtain ⟨j, w, hj, hjl, hwj, hpj⟩ := hpos y hy
    rw [hpi, hpj] at hxy
    simp only [Int.toNat_ofNat] at hxy
    have hij := window_mod_inj i j M hxy (by omega) (by omega)
    subst hij
    rw [hi] at hj
    exact Prod.ext (Prod.mk.inj (Option.some.inj hj)).1 (by rw [hpi, hpj])
  have hvals : (c.index.map (fun q => q.2.toNat)).Nodup := List.Nodup.map_on hinj hnd
  have hsub : c.index.map (fun q => q.2.toNat) ⊆ List.range (min as.length M) := by
    intro x hx
    obtain ⟨q, hq, rfl⟩ := List.mem_map.1 hx
    obtain ⟨i, v, _, hil, hwin, hpi⟩ := hpos q hq
    rw [hpi]
    simp only [Int.toNat_ofNat]
    apply List.mem_range.2
    have hlt : i % M < M := Nat.mod_lt _ (by omega)
    by_cases hn : M ≤ as.length
    · omega
    · rw [Nat.mod_eq_of_lt (by omega)]
      omega
  have hle := (List.subperm_of_subset hvals hsub).length_le
  simpa using hle

/-- Adapter calls on a wrapped cache described by `Tr`: every call returns, and only the
calls of `Set` extend the history, with the empty string as value. -/
theorem adapter_run {M : Nat} {as : List (String × main.GoAny)} (f : main.FIFOCache)
    (h : Tr M as f.store) (ops : List main.Op) :
    ∃ rs f', main.runOps f ops = some (rs, f') ∧
      Tr M (as ++ (main.setKeys ops).map (fun k => (k, main.GoAny.str ""))) f'.store := by
  induction ops generalizing as f with
  | nil => exact ⟨[], f, rfl, by simpa [main.setKeys] using h⟩
  | cons op rest ih =>
    cases op with
    | set key =>
      obtain ⟨c1, hadd, h1⟩ := h.add key (main.GoAny.str "")
      obtain ⟨rs, f', hrun, h'⟩ := ih { store := c1 } h1
      refine ⟨none :: rs, f', ?_, by simpa [main.setKeys] using h'⟩
      simp [main.runOps, main.stepOp, main.FIFOCache.Set, hadd, hrun]
    | get key =>
      obtain ⟨v, ok, hget⟩ := h.get key
      obtain ⟨rs, f', hrun, h'⟩ := ih f h
      refine ⟨some ok :: rs, f', ?_, by simpa [main.setKeys] using h'⟩
      simp [main.runOps, main.stepOp, main.FIFOCache.Get, hget, hrun]

end Occupancy

/-! ## The claims -/

section Claims

variable {K V : Type} [DecidableEq K] [Inhabited V]

/-- C1 (presence correctness): in every state reached from `New(maxSize)` by a sequence of
calls, for every key `k` and value `v`, `Add(k, v)` returns and the `Get(k)` that follows it
immediately returns `(v, true)`; this covers a key that is already resident and a key held
by the slot being overwritten. -/
theorem C1_get_after_add (maxSize : Int) (calls : List (Call K V)) (k : K) (v : V) :
    ∃ rs c b c', runFresh maxSize calls = some (rs, c) ∧ c.Add k v = some (b, c') ∧
      c'.Get k = some ((v, true), c') := by
  obtain ⟨rs, c, hrun, h⟩ := runFresh_Tr (K := K) (V := V) maxSize calls
  obtain ⟨c', hadd, h'⟩ := h.add k v
  refine ⟨rs, c, _, c', hrun, hadd, ?_⟩
  have hp := h'.newest k v (List.getLast?_concat _)
  have hslot := h'.recent (addsOf calls).length k v (List.getElem?_concat_length _ _)
    (by have := h.pos; simp; omega)
  have hsl : sliceAt c'.entries ((((addsOf calls) ++ [(k, v)]).length - 1) % capacity maxSize : Nat)
      = some (some { key := k, value := v }) := by
    rw [sliceAt_natCast]
    simpa using hslot
  simp only [fifoCache.Get, hp, hsl]

/-- C2 (FIFO order with unique keys): for a capacity `M ≥ 1` and `M + 1` pairwise distinct
keys added in order to `New(M)`, the first `M` calls of `Add` return false and the last one
returns true; afterwards `Get` of the first key reports not-found and `Get` of the key of
the `i`-th pair, for every later position `i`, returns its value and true. -/
theorem C2_fifo_order_unique_keys (M : Nat) (hM : 1 ≤ M) (kvs : List (K × V))
    (hlen : kvs.length = M + 1) (hnd : (kvs.map Prod.fst).Nodup) :
    ∃ c, runFresh (M : Int) (kvs.map (fun kv => Call.add kv.1 kv.2))
        = some (List.replicate M (Ret.added false) ++ [Ret.added true], c) ∧
      (∀ (k1 : K) (v1 : V), kvs[0]? = some (k1, v1) → c.Get k1 = some ((default, false), c)) ∧
      (∀ (i : Nat) (ki : K) (vi : V), 1 ≤ i → kvs[i]? = some (ki, vi) →
        c.Get ki = some ((vi, true), c)) := by
  obtain ⟨c, hrun, h⟩ := runFresh_adds (K := K) (V := V) (M : Int) kvs
  rw [capacity_of_pos M hM] at hrun h
  rw [hlen, results_once_full] at hrun
  refine ⟨c, hrun, ?_, ?_⟩
  · intro k1 v1 h0
    exact h.get_old hnd 0 k1 v1 h0 (by omega)
  · intro i ki vi hi hkv
    exact h.get_recent hnd i ki vi hkv (by omega)

/-- C3 (true FIFO for unique keys): for a capacity `M ≥ 1` and any sequence of calls on
`New(M)` whose `Add` calls have pairwise distinct keys (calls of `Get` may be interleaved
anywhere), the keys `Get` finds afterwards are exactly the last `min n M` keys added; and
when the cache is full, one more `Add` of a new key returns true and removes exactly the
earliest-inserted resident key `k0`: the keys found after it are the new key and the keys
found before other than `k0`. -/
theorem C3_true_fifo_unique_keys (M : Nat) (hM : 1 ≤ M) (calls : List (Call K V))
    (hnd : ((addsOf calls).map Prod.fst).Nodup) :
    ∃ rs c, runFresh (M : Int) calls = some (rs, c) ∧
      (∀ k, found c k = true ↔
        k ∈ lastN (min (addsOf calls).length M) ((addsOf calls).map Prod.fst)) ∧
      (∀ k v, k ∉ (addsOf calls).map Prod.fst → M ≤ (addsOf calls).length →
        ∃ c' k0, c.Add k v = some (true, c') ∧
          (lastN (min (addsOf calls).length M) ((addsOf calls).map Prod.fst)).head? = some k0 ∧
          found c k0 = true ∧
          ∀ k', found c' k' = true ↔ (k' = k ∨ (found c k' = true ∧ k' ≠ k0))) := by
  obtain ⟨rs, c, hrun, h⟩ := runFresh_Tr (K := K) (V := V) (M : Int) calls
  rw [capacity_of_pos M hM] at h
  refine ⟨rs, c, hrun, fun k => h.found_iff_lastN hnd k, ?_⟩
  intro k v hk hfull
  obtain ⟨c', hadd, h'⟩ := h.add k v
  have hnd' : (((addsOf calls) ++ [(k, v)]).map Prod.fst).Nodup := by
    rw [List.map_append, List.nodup_append]
    refine ⟨hnd, by simp, ?_⟩
    intro a ha hb
    have hak : a = k := by simpa using hb
    exact hk (hak ▸ ha)
  have hi : (addsOf calls).length - M < (addsOf calls).length := by omega
  obtain ⟨k0, v0, hk0⟩ : ∃ k0 v0, (addsOf calls)[(addsOf calls).length - M]? = some (k0, v0) :=
    ⟨((addsOf calls)[(addsOf calls).length - M]).1, ((addsOf calls)[(addsOf calls).length - M]).2,
      List.getElem?_eq_getElem hi⟩
  refine ⟨c', k0, by simpa [hfull] using hadd, ?_, ?_, ?_⟩
  · unfold lastN
    rw [List.head?_drop, List.getElem?_map, List.length_map, Nat.min_eq_right hfull, hk0]
    rfl
  · exact (h.found_iff_window hnd k0).2 ⟨_, v0, hk0, by omega⟩
  · intro k'
    rw [h'.found_iff_window hnd', h.found_iff_window hnd]
    constructor
    · rintro ⟨i, w, hiw, hwin⟩
      rw [List.length_append, List.length_singleton] at hwin
      rcases Nat.lt_trichotomy i (addsOf calls).length with hlt | heq | hgt
      · rw [List.getElem?_append_left hlt] at hiw
        refine Or.inr ⟨⟨i, w, hiw, by omega⟩, ?_⟩
        intro hkk
        rw [hkk] at hiw
        have := index_eq_of_nodup_keys _ hnd _ _ k0 w v0 hiw hk0
        omega
      · rw [heq, List.getElem?_concat_length] at hiw
        exact Or.inl (congrArg Prod.fst (Option.some.inj hiw)).symm
      · rw [List.getElem?_eq_none (by simp; omega)] at hiw
        cases hiw
    · rintro (hkk | ⟨⟨i, w, hiw, hwin⟩, hne⟩)
      · exact ⟨(addsOf calls).length, v, by rw [hkk, List.getElem?_concat_length], by simp; omega⟩
      · have hil : i < (addsOf calls).length := by
          by_contra hcon
          rw [List.getElem?_eq_none (by omega)] at hiw
          cases hiw
        refine ⟨i, w, by rw [List.getElem?_append_left hil]; exact hiw, ?_⟩
        rw [List.length_append, List.length_singleton]
        by_contra hcon
        have hieq : i = (addsOf calls).length - M := by omega
        rw [hieq, hk0] at hiw
        exact hne (congrArg Prod.fst (Option.some.inj hiw)).symm

/-- C4 (capacity bound): after `New(maxSize)`, for every requested size, and any sequence
of calls (any keys, repeats allowed), the index holds at most `maxSize` (normalised) keys,
and so does every list of distinct keys that `Get` reports as found. -/
theorem C4_capacity_bound (maxSize : Int) (calls : List (Call K V)) :
    ∃ rs c, runFresh maxSize calls = some (rs, c) ∧
      c.maxSize = (capacity maxSize : Int) ∧
      (c.index.length : Int) ≤ c.maxSize ∧
      ∀ ks : List K, ks.Nodup → (∀ k ∈ ks, found c k = true) → (ks.length : Int) ≤ c.maxSize := by
  obtain ⟨rs, c, hrun, h⟩ := runFresh_Tr (K := K) (V := V) maxSize calls
  have hlen := h.index_length_le
  refine ⟨rs, c, hrun, h.maxSize_eq, ?_, ?_⟩
  · rw [h.maxSize_eq]
    exact_mod_cast hlen
  · intro ks hks hfound
    have hsub : ks ⊆ c.index.map Prod.fst := by
      intro k hk
      exact (mem_keys_iff_mapGet c.index k).2 ((h.found_iff k).1 (hfound k hk))
    have hle := (List.subperm_of_subset hks hsub).length_le
    rw [List.length_map] at hle
    rw [h.maxSize_eq]
    exact_mod_cast le_trans hle hlen

/-- C5 (miss on absent key): after `New(maxSize)` and any sequence of calls, `Get` of a key
that is not the key of any of the `Add` calls (so any key, on a fresh cache) returns
found = false together with the zero value of the value type. -/
theorem C5_miss_on_absent_key (maxSize : Int) (calls : List (Call K V)) (k : K)
    (hk : k ∉ (addsOf calls).map Prod.fst) :
    ∃ rs c, runFresh maxSize calls = some (rs, c) ∧ c.Get k = some ((default, false), c) := by
  obtain ⟨rs, c, hrun, h⟩ := runFresh_Tr (K := K) (V := V) maxSize calls
  exact ⟨rs, c, hrun, h.get_absent k hk⟩

/-- C6 (eviction flag): for every requested size and every sequence of `Add` calls on the
fresh cache (any keys), call number `j + 1` returns true exactly when the capacity is less
than `j + 1`; and in the state reached, the next `Add` returns false exactly when some slot
is still empty. -/
theorem C6_eviction_flag (maxSize : Int) (kvs : List (K × V)) :
    ∃ c, runFresh maxSize (kvs.map (fun kv => Call.add kv.1 kv.2))
        = some ((List.range kvs.length).map
            (fun j => Ret.added (decide (capacity maxSize < j + 1))), c) ∧
      ∀ k v, ∃ b c', c.Add k v = some (b, c') ∧
        (b = false ↔ ∃ j, sliceAt c.entries j = some none) := by
  obtain ⟨c, hrun, h⟩ := runFresh_adds (K := K) (V := V) maxSize kvs
  refine ⟨c, ?_, ?_⟩
  · rw [hrun]
    congr 2
    apply List.map_congr_left
    intro j _
    congr 1
    simp [Nat.lt_succ_iff]
  · intro k v
    obtain ⟨c', hadd, _⟩ := h.add k v
    refine ⟨_, c', hadd, ?_⟩
    constructor
    · intro hb
      have hn : kvs.length < capacity maxSize := by
        by_contra hcon
        have : capacity maxSize ≤ kvs.length := by omega
        simp [this] at hb
      refine ⟨(kvs.length : Int), ?_⟩
      rw [sliceAt_natCast]
      exact h.vacant kvs.length (le_refl _) hn
    · rintro ⟨j, hj⟩
      by_contra hb
      have hfull : capacity maxSize ≤ kvs.length := by
        by_contra hcon
        apply hb
        simp [hcon]
      unfold sliceAt at hj
      split at hj
      · cases hj
      · have hjl : j.toNat < c.entries.length := by
          by_contra hcon
          rw [List.getElem?_eq_none (by omega)] at hj
          cases hj
        rw [h.length_eq] at hjl
        obtain ⟨e, he⟩ := h.filled j.toNat (by omega) hjl
        rw [he] at hj
        cases hj

/-- C7 (default capacity): for every requested `maxSize ≤ 0`, `New(maxSize)` yields a cache
of capacity exactly 10: it has ten slots, of eleven calls of `Add` the first ten return
false and the eleventh returns true, and ten distinct keys added to it are all retrievable
(with their values) before an eleventh `Add`. -/
theorem C7_default_capacity (maxSize : Int) (hm : maxSize ≤ 0) :
    (∃ c0 : fifoCache K V, New maxSize = Except.ok c0 ∧ c0.maxSize = 10 ∧
      c0.entries.length = 10) ∧
    (∀ kvs : List (K × V), kvs.length = 11 →
      ∃ c, runFresh maxSize (kvs.map (fun kv => Call.add kv.1 kv.2))
        = some (List.replicate 10 (Ret.added false) ++ [Ret.added true], c)) ∧
    (∀ kvs : List (K × V), kvs.length = 10 → (kvs.map Prod.fst).Nodup →
      ∃ c, runFresh maxSize (kvs.map (fun kv => Call.add kv.1 kv.2))
          = some (List.replicate 10 (Ret.added false), c) ∧
        ∀ (i : Nat) (k : K) (v : V), kvs[i]? = some (k, v) →
          c.Get k = some ((v, true), c)) := by
  have hcap := capacity_of_nonpos maxSize hm
  refine ⟨?_, ?_, ?_⟩
  · refine ⟨_, New_eq maxSize, ?_, ?_⟩
    · show ((capacity maxSize : Nat) : Int) = 10
      rw [hcap]; rfl
    · show (List.replicate (capacity maxSize) none).length = 10
      rw [hcap]; rfl
  · intro kvs hlen
    obtain ⟨c, hrun, _⟩ := runFresh_adds (K := K) (V := V) maxSize kvs
    rw [hcap, hlen, results_once_full] at hrun
    exact ⟨c, hrun⟩
  · intro kvs hlen hnd
    obtain ⟨c, hrun, h⟩ := runFresh_adds (K := K) (V := V) maxSize kvs
    rw [hcap] at h
    rw [hcap, hlen, results_before_full 10 10 (le_refl _)] at hrun
    refine ⟨c, hrun, ?_⟩
    intro i k v hi
    exact h.get_recent hnd i k v hi (by omega)

/-- C8 (construction, as the code has it): for every integer `maxSize` whose normalised
capacity the runtime can allocate as a slice (at most `maxLen` slots), `New` returns a nil
error and a cache on which every sequence of calls runs without a panic, and `NewFIFO`
wraps that cache; and for no `maxSize` at all does `New` return a non-nil error, so the
`log.Fatal` branch of `NewFIFO` is never taken. -/
theorem C8_construction_amended (maxLen : Nat) (maxSize : Int) :
    (∀ err : String,
      (NewAlloc maxLen maxSize : Option (Except String (fifoCache K V)))
        ≠ some (Except.error err)) ∧
    (∀ err : String, main.NewFIFOAlloc maxLen maxSize ≠ some (Except.error err)) ∧
    (capacity maxSize ≤ maxLen →
      (∃ c0 : fifoCache K V, NewAlloc maxLen maxSize = some (Except.ok c0) ∧
        c0.maxSize = (capacity maxSize : Int) ∧ c0.entries.length = capacity maxSize ∧
        ∀ calls : List (Call K V), ∃ rs c, run c0 calls = some (rs, c)) ∧
      (∃ store, (NewAlloc maxLen maxSize :
            Option (Except String (fifoCache String main.GoAny))) = some (Except.ok store) ∧
        main.NewFIFOAlloc maxLen maxSize = some (Except.ok { store := store }))) := by
  refine ⟨fun err => NewAlloc_ne_error maxLen maxSize err, ?_, ?_⟩
  · intro err hcon
    unfold main.NewFIFOAlloc at hcon
    by_cases h : capacity maxSize ≤ maxLen
    · rw [NewAlloc_eq_New maxLen maxSize h, New_eq] at hcon
      cases Option.some.inj hcon
    · rw [NewAlloc_of_gt maxLen maxSize (by omega)] at hcon
      cases hcon
  · intro h
    constructor
    · obtain ⟨c0, hnew, h0⟩ := Tr_New (K := K) (V := V) maxSize
      refine ⟨c0, by rw [NewAlloc_eq_New maxLen maxSize h, hnew], h0.maxSize_eq,
        h0.length_eq, ?_⟩
      intro calls
      obtain ⟨rs, c, hrun, _⟩ := h0.run_calls calls
      exact ⟨rs, c, hrun⟩
    · refine ⟨_, by rw [NewAlloc_eq_New maxLen maxSize h, New_eq], ?_⟩
      unfold main.NewFIFOAlloc
      rw [NewAlloc_eq_New maxLen maxSize h, New_eq]

/-- C8, as stated, fails: for `maxSize = 2^62` the call of `make` in `New` panics, so `New`
returns nothing (neither a cache nor an error) and `NewFIFO` with it; this is so on a
runtime that allocates at most `2^45` slots (the limit of `make` for 8-byte elements on
64-bit platforms) and still so for a limit of `2^61 - 1` slots (the most whose size in bytes
fits a 64-bit word). -/
theorem C8_counterexample :
    (NewAlloc 35184372088832 4611686018427387904 :
      Option (Except String (fifoCache String main.GoAny))) = none ∧
    main.NewFIFOAlloc 35184372088832 4611686018427387904 = none ∧
    (NewAlloc 2305843009213693951 4611686018427387904 :
      Option (Except String (fifoCache String main.GoAny))) = none ∧
    main.NewFIFOAlloc 2305843009213693951 4611686018427387904 = none ∧
    ¬ ∃ c0 : fifoCache String main.GoAny,
        NewAlloc 35184372088832 4611686018427387904 = some (Except.ok c0) := by
  have h1 : (NewAlloc 35184372088832 4611686018427387904 :
      Option (Except String (fifoCache String main.GoAny))) = none := by
    simp [NewAlloc, makeSlice]
  have h2 : (NewAlloc 2305843009213693951 4611686018427387904 :
      Option (Except String (fifoCache String main.GoAny))) = none := by
    simp [NewAlloc, makeSlice]
  refine ⟨h1, ?_, h2, ?_, ?_⟩
  · simp only [main.NewFIFOAlloc, h1]
  · simp only [main.NewFIFOAlloc, h2]
  · rintro ⟨c0, hc0⟩
    rw [h1] at hc0
    cases hc0

/-- C9 (duplicate-key scenario): for pairwise distinct keys `a`, `b`, `c` and a fresh cache
of capacity 3, the calls `Add(a)`, `Add(a)`, `Add(b)`, `Add(c)` return false, false, false,
true.  Before the last call the cursor is at slot 0, which holds the first entry of `a`,
while the index maps `a` to slot 1; the last call deletes `a` from the index all the same,
so afterwards `Get(a)` reports not-found although slot 1 still holds an entry with key `a`,
and `b` and `c` are found. -/
theorem C9_duplicate_key_scenario (a b c : K) (hab : a ≠ b) (hac : a ≠ c) (hbc : b ≠ c)
    (va va' vb vc : V) :
    ∃ s3 s,
      runFresh 3 [Call.add a va, Call.add a va', Call.add b vb]
        = some ([Ret.added false, Ret.added false, Ret.added false], s3) ∧
      s3.cursor = 0 ∧
      sliceAt s3.entries 0 = some (some { key := a, value := va }) ∧
      mapGet s3.index a = some 1 ∧
      s3.Add c vc = some (true, s) ∧
      runFresh 3 [Call.add a va, Call.add a va', Call.add b vb, Call.add c vc]
        = some ([Ret.added false, Ret.added false, Ret.added false, Ret.added true], s) ∧
      mapGet s.index a = none ∧
      s.Get a = some ((default, false), s) ∧
      sliceAt s.entries 1 = some (some { key := a, value := va' }) ∧
      s.Get b = some ((vb, true), s) ∧
      s.Get c = some ((vc, true), s) := by
  have hba : ¬ b = a := fun h => hab h.symm
  have hca : ¬ c = a := fun h => hac h.symm
  have hcb : ¬ c = b := fun h => hbc h.symm
  refine ⟨{ blank := default, cursor := 0, index := [(b, 2), (a, 1)], maxSize := 3,
            entries := [some { key := a, value := va }, some { key := a, value := va' },
              some { key := b, value := vb }] },
          { blank := default, cursor := 1, index := [(c, 0), (b, 2)], maxSize := 3,
            entries := [some { key := c, value := vc }, some { key := a, value := va' },
              some { key := b, value := vb }] }, ?_, rfl, rfl, ?_, ?_, ?_, ?_, ?_, rfl, ?_, ?_⟩
  · simp [runFresh, New, run, step, fifoCache.Add, sliceAt, sliceSet, mapSet, mapDelete, hab]
  · simp [mapGet, hba]
  · simp [fifoCache.Add, sliceAt, sliceSet, mapSet, mapDelete, hab, hac, hbc, hba]
  · simp [runFresh, New, run, step, fifoCache.Add, sliceAt, sliceSet, mapSet, mapDelete,
      hab, hac, hbc, hba]
  · simp [mapGet, hca, hba]
  · simp [fifoCache.Get, mapGet, hca, hba]
  · simp [fifoCache.Get, mapGet, hcb, sliceAt]
  · simp [fifoCache.Get, mapGet, sliceAt]

/-- C10 (meaning of the result of `Add`, as the code has it): in every state reached from
`New(maxSize)` by a sequence of calls, `Add(key, val)` returns true exactly when the slot at
the cursor was occupied before the call (an older entry is overwritten); whenever a key
that `Get` found immediately before the call is not found immediately after it, that key is
the key of the overwritten entry, so `Add` returned true; and when `Add` returns false every
key found before is still found after. -/
theorem C10_add_result_amended (maxSize : Int) (calls : List (Call K V)) (key : K) (val : V) :
    ∃ rs c b c', runFresh maxSize calls = some (rs, c) ∧ c.Add key val = some (b, c') ∧
      (b = true ↔ ∃ e, sliceAt c.entries c.cursor = some (some e)) ∧
      (∀ k', found c k' = true → found c' k' = false →
        b = true ∧ ∃ e, sliceAt c.entries c.cursor = some (some e) ∧ e.key = k') ∧
      (b = false → ∀ k', found c k' = true → found c' k' = true) := by
  obtain ⟨rs, c, hrun, h⟩ := runFresh_Tr (K := K) (V := V) maxSize calls
  obtain ⟨c', hadd, h'⟩ := h.add key val
  have hlost : ∀ k', found c k' = true → found c' k' = false →
      decide (capacity maxSize ≤ (addsOf calls).length) = true ∧
        ∃ e, sliceAt c.entries c.cursor = some (some e) ∧ e.key = k' := by
    intro k' hbefore hafter
    obtain ⟨p, hp⟩ := (h.found_iff k').1 hbefore
    have hnone : mapGet c'.index k' = none := by
      cases hq : mapGet c'.index k' with
      | none => rfl
      | some q =>
        have := (h'.found_iff k').2 ⟨q, hq⟩
        rw [this] at hafter
        cases hafter
    cases hs : sliceAt c.entries c.cursor with
    | none => simp [fifoCache.Add, hs] at hadd
    | some prev =>
      cases prev with
      | none =>
        exfalso
        rw [Add_of_vacant c key val hs] at hadd
        have hc' := (Prod.mk.inj (Option.some.inj hadd)).2
        rw [← hc'] at hnone
        simp only [mapGet_mapSet] at hnone
        by_cases hk : k' = key
        · simp [hk] at hnone
        · simp [hk, hp] at hnone
      | some e =>
        rw [Add_of_occupied c key val e hs] at hadd
        have hb := (Prod.mk.inj (Option.some.inj hadd)).1
        have hc' := (Prod.mk.inj (Option.some.inj hadd)).2
        rw [← hc'] at hnone
        simp only [mapGet_mapSet, mapGet_mapDelete] at hnone
        refine ⟨hb.symm, e, rfl, ?_⟩
        by_cases hk : k' = key
        · simp [hk] at hnone
        · by_cases hke : k' = e.key
          · exact hke.symm
          · simp [hk, hke, hp] at hnone
  refine ⟨rs, c, _, c', hrun, hadd, ?_, hlost, ?_⟩
  · cases hs : sliceAt c.entries c.cursor with
    | none => simp [fifoCache.Add, hs] at hadd
    | some prev =>
      cases prev with
      | none =>
        rw [Add_of_vacant c key val hs] at hadd
        have hb := (Prod.mk.inj (Option.some.inj hadd)).1
        rw [← hb]
        simp
      | some e =>
        rw [Add_of_occupied c key val e hs] at hadd
        have hb := (Prod.mk.inj (Option.some.inj hadd)).1
        rw [← hb]
        simp
  · intro hb k' hbefore
    cases hafter : found c' k' with
    | true => rfl
    | false =>
      have := (hlost k' hbefore hafter).1
      rw [this] at hb
      cases hb

/-- C10, as stated, fails: on a cache of capacity 1 that holds key 7, `Add(7, 2)` returns
true, yet no key that `Get` found before the call is missing after it. -/
theorem C10_counterexample :
    ∃ (c c' : fifoCache Nat Nat) (b : Bool),
      runFresh 1 [Call.add 7 1] = some ([Ret.added false], c) ∧
      c.Add 7 2 = some (b, c') ∧
      ¬ (b = true ↔ ∃ k, found c k = true ∧ found c' k = false) := by
  refine ⟨{ blank := 0, cursor := 0, index := [(7, 0)], maxSize := 1,
            entries := [some { key := 7, value := 1 }] },
          { blank := 0, cursor := 0, index := [(7, 0)], maxSize := 1,
            entries := [some { key := 7, value := 2 }] }, true, by decide, by decide, ?_⟩
  intro hiff
  obtain ⟨k, hbefore, hafter⟩ := hiff.1 rfl
  by_cases hk : k = 7
  · subst hk
    revert hafter
    decide
  · have hk' : ¬ 7 = k := fun h => hk h.symm
    simp [found, fifoCache.Get, mapGet, hk'] at hbefore

/-- C11 (`Get` is read-only): in every state `Get` gives the state back as it was (slots,
index and cursor included), and in every state reached from `New(maxSize)` it returns; hence
for a call sequence into which any number of calls of `Get` are inserted anywhere, the calls
of the sequence itself (`Add` and `Get` alike) return what they return without the inserted
calls, and the final state is the same. -/
theorem C11_get_read_only (maxSize : Int) (calls : List (Call K V)) (items : List (Item K V))
    (key : K) :
    (∀ (c c' : fifoCache K V) (k : K) (r : V × Bool), c.Get k = some (r, c') →
      c'.entries = c.entries ∧ c'.index = c.index ∧ c'.cursor = c.cursor ∧ c' = c) ∧
    (∃ rs c v ok, runFresh maxSize calls = some (rs, c) ∧ c.Get key = some ((v, ok), c)) ∧
    (∃ rs rs0 c', runFresh maxSize (withExtraGets items) = some (rs, c') ∧
      runFresh maxSize (withoutExtraGets items) = some (rs0, c') ∧
      origResults items rs = rs0) := by
  refine ⟨?_, ?_, ?_⟩
  · intro c c' k r hget
    have := Get_state c c' k r hget
    subst this
    exact ⟨rfl, rfl, rfl, rfl⟩
  · obtain ⟨rs, c, hrun, h⟩ := runFresh_Tr (K := K) (V := V) maxSize calls
    obtain ⟨v, ok, hget⟩ := h.get key
    exact ⟨rs, c, v, ok, hrun, hget⟩
  · obtain ⟨c0, hnew, h0⟩ := Tr_New (K := K) (V := V) maxSize
    obtain ⟨rs, rs0, c', hrun, hrun0, hres⟩ := h0.run_items items
    exact ⟨rs, rs0, c', by simp [runFresh, hnew, hrun], by simp [runFresh, hnew, hrun0], hres⟩

/-- C13 (the state transition of `Add`): in every state reached from `New(maxSize)`, with
cursor `c.cursor`, `Add(key, val)` returns, and afterwards the slot at the old cursor holds
the entry `(key, val)` and every other slot is as before; the index maps `key` to the old
cursor, no longer maps the key of the old occupant of that slot (if there was one and it is
not `key`), and maps every other key as before; the cursor is the old cursor plus one, or 0
when that equals `maxSize`; `maxSize` and `blank` are as before. -/
theorem C13_add_transition (maxSize : Int) (calls : List (Call K V)) (key : K) (val : V) :
    ∃ rs c b c', runFresh maxSize calls = some (rs, c) ∧ c.Add key val = some (b, c') ∧
      sliceAt c'.entries c.cursor = some (some { key := key, value := val }) ∧
      (∀ j, j ≠ c.cursor → sliceAt c'.entries j = sliceAt c.entries j) ∧
      c'.entries.length = c.entries.length ∧
      mapGet c'.index key = some c.cursor ∧
      (∀ k' e, k' ≠ key → sliceAt c.entries c.cursor = some (some e) → e.key = k' →
        mapGet c'.index k' = none) ∧
      (∀ k', k' ≠ key → (∀ e, sliceAt c.entries c.cursor = some (some e) → e.key ≠ k') →
        mapGet c'.index k' = mapGet c.index k') ∧
      c'.cursor = (if c.cursor + 1 = c.maxSize then 0 else c.cursor + 1) ∧
      c'.maxSize = c.maxSize ∧ c'.blank = c.blank := by
  obtain ⟨rs, c, hrun, h⟩ := runFresh_Tr (K := K) (V := V) maxSize calls
  obtain ⟨c', hadd, _⟩ := h.add key val
  refine ⟨rs, c, _, c', hrun, hadd, ?_⟩
  cases hs : sliceAt c.entries c.cursor with
  | none => simp [fifoCache.Add, hs] at hadd
  | some prev =>
    cases prev with
    | none =>
      rw [Add_of_vacant c key val hs] at hadd
      have hc' := (Prod.mk.inj (Option.some.inj hadd)).2
      subst hc'
      refine ⟨sliceAt_sliceSet_self _ _ _ _ hs, fun j hj => sliceAt_sliceSet_ne _ _ _ _ hj,
        length_sliceSet _ _ _, by simp [mapGet_mapSet], ?_, ?_, rfl, rfl, rfl⟩
      · intro k' e _ he
        cases he
      · intro k' hk _
        simp [mapGet_mapSet, hk]
    | some e0 =>
      rw [Add_of_occupied c key val e0 hs] at hadd
      have hc' := (Prod.mk.inj (Option.some.inj hadd)).2
      subst hc'
      refine ⟨sliceAt_sliceSet_self _ _ _ _ hs, fun j hj => sliceAt_sliceSet_ne _ _ _ _ hj,
        length_sliceSet _ _ _, by simp [mapGet_mapSet], ?_, ?_, rfl, rfl, rfl⟩
      · intro k' e hk he hek
        have hee : e0 = e := Option.some.inj (Option.some.inj he)
        subst hee
        simp [mapGet_mapSet, mapGet_mapDelete, hk, hek]
      · intro k' hk hne
        have hk0 : ¬ k' = e0.key := fun hcon => hne e0 rfl hcon.symm
        simp [mapGet_mapSet, mapGet_mapDelete, hk, hk0]

/-- C14 (cursor invariant): in every state reached from `New(maxSize)`, for every integer
`maxSize`, by any sequence of calls of `Add` and `Get`, `0 ≤ cursor < maxSize`, where
`maxSize` is the normalised capacity and equals `len(entries)`; so the read of
`entries[cursor]` in `Add` is in range and `Add` returns (no panic) for every key and
value. -/
theorem C14_cursor_invariant (maxSize : Int) (calls : List (Call K V)) :
    ∃ rs c, runFresh maxSize calls = some (rs, c) ∧
      0 ≤ c.cursor ∧ c.cursor < c.maxSize ∧
      c.maxSize = (capacity maxSize : Int) ∧ (c.entries.length : Int) = c.maxSize ∧
      (∃ prev, sliceAt c.entries c.cursor = some prev) ∧
      ∀ (k : K) (v : V), ∃ b c', c.Add k v = some (b, c') := by
  obtain ⟨rs, c, hrun, h⟩ := runFresh_Tr (K := K) (V := V) maxSize calls
  have hlt : (addsOf calls).length % capacity maxSize < capacity maxSize :=
    Nat.mod_lt _ (by have := h.pos; omega)
  refine ⟨rs, c, hrun, ?_, ?_, h.maxSize_eq, ?_, ?_, ?_⟩
  · rw [h.cursor_eq]
    exact Int.ofNat_nonneg _
  · rw [h.cursor_eq, h.maxSize_eq]
    exact_mod_cast hlt
  · rw [h.maxSize_eq, h.length_eq]
  · rw [h.cursor_eq, sliceAt_natCast]
    exact ⟨_, List.getElem?_eq_getElem (by rw [h.length_eq]; exact hlt)⟩
  · intro k v
    obtain ⟨c', hadd, _⟩ := h.add k v
    exact ⟨_, c', hadd⟩

/-- C15 (the index points at occupied slots): in every state reached from `New(maxSize)` by
any sequence of calls, every position the index maps a key to is within `0 .. maxSize - 1`
and its slot is occupied; so the read `entries[idx].value` in `Get` is in range and never
goes through a nil slot: `Get` returns (no panic) for every key. -/
theorem C15_index_points_at_occupied_slots (maxSize : Int) (calls : List (Call K V)) :
    ∃ rs c, runFresh maxSize calls = some (rs, c) ∧
      (∀ (k : K) (p : Int), mapGet c.index k = some p →
        0 ≤ p ∧ p ≤ c.maxSize - 1 ∧ ∃ e, sliceAt c.entries p = some (some e)) ∧
      (∀ (k : K) (p : Int), (k, p) ∈ c.index →
        0 ≤ p ∧ p ≤ c.maxSize - 1 ∧ ∃ e, sliceAt c.entries p = some (some e)) ∧
      ∀ k : K, ∃ v ok, c.Get k = some ((v, ok), c) := by
  obtain ⟨rs, c, hrun, h⟩ := runFresh_Tr (K := K) (V := V) maxSize calls
  have hmain : ∀ (k : K) (p : Int), mapGet c.index k = some p →
      0 ≤ p ∧ p ≤ c.maxSize - 1 ∧ ∃ e, sliceAt c.entries p = some (some e) := by
    intro k p hp
    obtain ⟨i, v, hi, hwin, hpi, _⟩ := h.index_sound k p hp
    have hlt : i % capacity maxSize < capacity maxSize :=
      Nat.mod_lt _ (by have := h.pos; omega)
    refine ⟨?_, ?_, ⟨{ key := k, value := v }, ?_⟩⟩
    · rw [hpi]
      exact Int.ofNat_nonneg _
    · rw [hpi, h.maxSize_eq]
      have : ((i % capacity maxSize : Nat) : Int) < (capacity maxSize : Int) := by
        exact_mod_cast hlt
      omega
    · rw [hpi, sliceAt_natCast]
      exact h.recent i k v hi hwin
  refine ⟨rs, c, hrun, hmain, ?_, fun k => h.get k⟩
  intro k p hmem
  exact hmain k p (mapGet_of_mem c.index h.keys_nodup k p hmem)

/-- C16 (ring order): after any calls on a fresh cache of capacity `M` of which `n` are
calls of `Add`, the cursor equals `n mod M`; the slot at the cursor is empty when `n < M`
and otherwise holds the entry written by call number `n - M + 1` of `Add`; and every
occupied slot holds the entry written by a call of `Add` that is not earlier than that one,
so the slot at the cursor is the least-recently-written occupied slot. -/
theorem C16_ring_order (maxSize : Int) (calls : List (Call K V)) :
    ∃ rs c, runFresh maxSize calls = some (rs, c) ∧
      c.cursor = (((addsOf calls).length % capacity maxSize : Nat) : Int) ∧
      ((addsOf calls).length < capacity maxSize → sliceAt c.entries c.cursor = some none) ∧
      (capacity maxSize ≤ (addsOf calls).length →
        ∃ k v, (addsOf calls)[(addsOf calls).length - capacity maxSize]? = some (k, v) ∧
          sliceAt c.entries c.cursor = some (some { key := k, value := v })) ∧
      (∀ (j : Nat) (e : entry K V), sliceAt c.entries (j : Int) = some (some e) →
        ∃ i, (addsOf calls)[i]? = some (e.key, e.value) ∧
          (addsOf calls).length - capacity maxSize ≤ i ∧ i % capacity maxSize = j) := by
  obtain ⟨rs, c, hrun, h⟩ := runFresh_Tr (K := K) (V := V) maxSize calls
  have hM := h.pos
  refine ⟨rs, c, hrun, h.cursor_eq, ?_, ?_, ?_⟩
  · intro hn
    rw [h.cursor_eq, sliceAt_natCast, Nat.mod_eq_of_lt hn]
    exact h.vacant _ (le_refl _) hn
  · intro hn
    have hi : (addsOf calls).length - capacity maxSize < (addsOf calls).length := by omega
    refine ⟨((addsOf calls)[(addsOf calls).length - capacity maxSize]).1,
      ((addsOf calls)[(addsOf calls).length - capacity maxSize]).2,
      List.getElem?_eq_getElem hi, ?_⟩
    have hslot := h.recent _ _ _ (List.getElem?_eq_getElem hi) (by omega)
    rw [sub_mod_ring _ _ hn] at hslot
    rw [h.cursor_eq, sliceAt_natCast]
    exact hslot
  · intro j e hj
    rw [sliceAt_natCast] at hj
    have hjM : j < capacity maxSize := by
      by_contra hcon
      rw [List.getElem?_eq_none (by rw [h.length_eq]; omega)] at hj
      cases hj
    have hjn : j < (addsOf calls).length := by
      by_contra hcon
      rw [h.vacant j (by omega) hjM] at hj
      cases Option.some.inj hj
    obtain ⟨i, hil, hwin, hmod⟩ := window_has_position _ _ j hM hjM hjn
    have hslot := h.recent i _ _ (List.getElem?_eq_getElem hil) hwin
    rw [hmod, hj] at hslot
    have he := Option.some.inj (Option.some.inj hslot)
    refine ⟨i, ?_, by omega, hmod⟩
    rw [List.getElem?_eq_getElem hil, he]
    rfl

/-- C17 (adapter membership semantics): after `NewFIFO(size)` and any sequence of adapter
calls, `Get(key)` returns exactly what the `Get` of the wrapped cache reports as found, and
`Set(key)` is `Add(key, "")` on the wrapped cache with its result discarded; hence `Get(k)`
is true immediately after `Set(k)`, and `Get(k)` is false for a key never passed to
`Set`. -/
theorem C17_adapter_membership (size : Int) (ops : List main.Op) (k : String) :
    ∃ rs f, main.runAdapter size ops = some (rs, f) ∧
      f.Get k = some (found f.store k, f) ∧
      f.Set k = (f.store.Add k (main.GoAny.str "")).map
        (fun r => ({ store := r.2 } : main.FIFOCache)) ∧
      (∃ f', f.Set k = some f' ∧ f'.Get k = some (true, f')) ∧
      (k ∉ main.setKeys ops → f.Get k = some (false, f)) := by
  obtain ⟨c0, hnew, h0⟩ := Tr_New (K := String) (V := main.GoAny) size
  obtain ⟨rs, f, hrun, h⟩ := adapter_run { store := c0 } h0 ops
  refine ⟨rs, f, by simp [main.runAdapter, main.NewFIFO, hnew, hrun], ?_, ?_, ?_, ?_⟩
  · obtain ⟨v, ok, hget⟩ := h.get k
    simp [main.FIFOCache.Get, found, hget]
  · cases hA : f.store.Add k (main.GoAny.str "") with
    | none => simp [main.FIFOCache.Set, hA]
    | some r => simp [main.FIFOCache.Set, hA]
  · obtain ⟨c1, hadd, h1⟩ := h.add k (main.GoAny.str "")
    refine ⟨{ store := c1 }, by simp [main.FIFOCache.Set, hadd], ?_⟩
    simp [main.FIFOCache.Get, h1.get_newest]
  · intro hk
    have habs := h.get_absent k (by simpa using hk)
    simp [main.FIFOCache.Get, habs]

/-- C18 (no stale or foreign value): after `New(maxSize)` and any sequence of calls (any
keys, repeats allowed), if `Get(k)` reports found then the value it returns is the value
passed to the most recent `Add` of `k` in that sequence. -/
theorem C18_get_returns_latest_value (maxSize : Int) (calls : List (Call K V)) (k : K) :
    ∃ rs c, runFresh maxSize calls = some (rs, c) ∧
      ∀ (v : V) (c' : fifoCache K V), c.Get k = some ((v, true), c') →
        ∃ i, (addsOf calls)[i]? = some (k, v) ∧
          ∀ (i' : Nat) (v' : V), i < i' → (addsOf calls)[i']? ≠ some (k, v') := by
  obtain ⟨rs, c, hrun, h⟩ := runFresh_Tr (K := K) (V := V) maxSize calls
  refine ⟨rs, c, hrun, ?_⟩
  intro v c' hget
  cases hp : mapGet c.index k with
  | none =>
    rw [h.get_miss k hp] at hget
    cases hget
  | some p =>
    obtain ⟨i, v0, hi, _, hlater, hget0⟩ := h.get_hit k p hp
    rw [hget0] at hget
    have hv : v0 = v := (Prod.mk.inj (Prod.mk.inj (Option.some.inj hget)).1).1
    subst hv
    exact ⟨i, hi, hlater⟩

/-- C19 (residency upper bound): in every state reached from `New(maxSize)` by any sequence
of calls, with capacity `M`, after `M` further consecutive calls of `Add` none of which has
the key `k`, `Get(k)` reports not-found, whether or not keys were repeated earlier. -/
theorem C19_residency_upper_bound (maxSize : Int) (calls : List (Call K V)) (kvs : List (K × V))
    (k : K) (hlen : kvs.length = capacity maxSize) (hk : k ∉ kvs.map Prod.fst) :
    ∃ rs c rs' c', runFresh maxSize calls = some (rs, c) ∧
      run c (kvs.map (fun kv => Call.add kv.1 kv.2)) = some (rs', c') ∧
      c'.Get k = some ((default, false), c') := by
  obtain ⟨rs, c, hrun, h⟩ := runFresh_Tr (K := K) (V := V) maxSize calls
  obtain ⟨c', hrun', h'⟩ := h.run_adds kvs
  refine ⟨rs, c, _, c', hrun, hrun', ?_⟩
  apply h'.get_miss
  cases hp : mapGet c'.index k with
  | none => rfl
  | some p =>
    exfalso
    obtain ⟨i, w, hi, hwin, _, _⟩ := h'.index_sound k p hp
    rw [List.length_append, hlen] at hwin
    rw [List.getElem?_append_right (by omega)] at hi
    exact hk (List.mem_map.2 ⟨(k, w), List.getElem?_mem hi, rfl⟩)

/-- C20 (index/slot key agreement): in every state reached from `New(maxSize)` by any
sequence of calls, whenever the index maps a key `k` to a position `p`, the entry stored in
slot `p` has key `k`; hence two distinct keys never map to the same slot, the index has one
pair per key, and the number of indexed keys is at most the number of occupied slots. -/
theorem C20_index_slot_key_agreement (maxSize : Int) (calls : List (Call K V)) :
    ∃ rs c, runFresh maxSize calls = some (rs, c) ∧
      (∀ (k : K) (p : Int), mapGet c.index k = some p →
        ∃ e, sliceAt c.entries p = some (some e) ∧ e.key = k) ∧
      (∀ (k1 k2 : K) (p : Int), mapGet c.index k1 = some p → mapGet c.index k2 = some p →
        k1 = k2) ∧
      (c.index.map Prod.fst).Nodup ∧
      c.index.length ≤ c.entries.countP (fun s => s.isSome) := by
  obtain ⟨rs, c, hrun, h⟩ := runFresh_Tr (K := K) (V := V) maxSize calls
  have hagree : ∀ (k : K) (p : Int), mapGet c.index k = some p →
      ∃ e, sliceAt c.entries p = some (some e) ∧ e.key = k := by
    intro k p hp
    obtain ⟨i, v, hi, hwin, hpi, _⟩ := h.index_sound k p hp
    refine ⟨{ key := k, value := v }, ?_, rfl⟩
    rw [hpi, sliceAt_natCast]
    exact h.recent i k v hi hwin
  refine ⟨rs, c, hrun, hagree, ?_, h.keys_nodup, ?_⟩
  · intro k1 k2 p h1 h2
    obtain ⟨e1, hs1, hk1⟩ := hagree k1 p h1
    obtain ⟨e2, hs2, hk2⟩ := hagree k2 p h2
    rw [hs1] at hs2
    have he := Option.some.inj (Option.some.inj hs2)
    rw [← hk1, ← hk2, he]
  · rw [h.occupied_count]
    exact h.index_length_le_min

/-! ## The theorems with hypotheses, at concrete inputs -/

/-- C2 at capacity 2 with the keys 1, 2, 3. -/
theorem C2_fifo_order_unique_keys_witness :
    (1 ≤ 2 ∧ [(1, 10), (2, 20), (3, 30)].length = 2 + 1 ∧
      ([(1, 10), (2, 20), (3, 30)].map Prod.fst).Nodup) ∧
    ∃ c : fifoCache Nat Nat,
      runFresh ((2 : Nat) : Int) ([(1, 10), (2, 20), (3, 30)].map (fun kv => Call.add kv.1 kv.2))
        = some (List.replicate 2 (Ret.added false) ++ [Ret.added true], c) ∧
      (∀ (k1 : Nat) (v1 : Nat), [(1, 10), (2, 20), (3, 30)][0]? = some (k1, v1) →
        c.Get k1 = some ((default, false), c)) ∧
      (∀ (i : Nat) (ki : Nat) (vi : Nat), 1 ≤ i → [(1, 10), (2, 20), (3, 30)][i]? = some (ki, vi) →
        c.Get ki = some ((vi, true), c)) :=
  ⟨⟨by decide, by decide, by decide⟩,
    C2_fifo_order_unique_keys 2 (by decide) [(1, 10), (2, 20), (3, 30)] (by decide) (by decide)⟩

/-- C3 at capacity 2 with the keys 1, 2, 3 and a `Get` in between. -/
theorem C3_true_fifo_unique_keys_witness :
    ∃ (rs : List (Ret Nat)) (c : fifoCache Nat Nat),
      runFresh ((2 : Nat) : Int) [Call.add 1 10, Call.get 1, Call.add 2 20, Call.add 3 30]
        = some (rs, c) ∧
      (∀ k, found c k = true ↔
        k ∈ lastN (min (addsOf [Call.add 1 10, Call.get 1, Call.add 2 20,
            Call.add 3 (30 : Nat)]).length 2)
          ((addsOf [Call.add 1 10, Call.get 1, Call.add 2 20, Call.add 3 (30 : Nat)]).map
            Prod.fst)) ∧
      (∀ k v, k ∉ (addsOf [Call.add 1 10, Call.get 1, Call.add 2 20,
            Call.add 3 (30 : Nat)]).map Prod.fst →
        2 ≤ (addsOf [Call.add 1 10, Call.get 1, Call.add 2 20, Call.add 3 (30 : Nat)]).length →
        ∃ c' k0, c.Add k v = some (true, c') ∧
          (lastN (min (addsOf [Call.add 1 10, Call.get 1, Call.add 2 20,
              Call.add 3 (30 : Nat)]).length 2)
            ((addsOf [Call.add 1 10, Call.get 1, Call.add 2 20, Call.add 3 (30 : Nat)]).map
              Prod.fst)).head? = some k0 ∧
          found c k0 = true ∧
          ∀ k', found c' k' = true ↔ (k' = k ∨ (found c k' = true ∧ k' ≠ k0))) :=
  C3_true_fifo_unique_keys 2 (by decide)
    [Call.add 1 10, Call.get 1, Call.add 2 20, Call.add 3 30] (by decide)

/-- C5 at capacity 2: key 9 was never added. -/
theorem C5_miss_on_absent_key_witness :
    ∃ (rs : List (Ret Nat)) (c : fifoCache Nat Nat),
      runFresh 2 [Call.add 1 10, Call.add 2 20, Call.add 3 30] = some (rs, c) ∧
      c.Get 9 = some ((default, false), c) :=
  C5_miss_on_absent_key 2 [Call.add 1 10, Call.add 2 20, Call.add 3 30] 9 (by decide)

/-- C7 at the requested size -5. -/
theorem C7_default_capacity_witness :
    (∃ c0 : fifoCache Nat Nat, New (-5) = Except.ok c0 ∧ c0.maxSize = 10 ∧
      c0.entries.length = 10) ∧
    (∀ kvs : List (Nat × Nat), kvs.length = 11 →
      ∃ c, runFresh (-5) (kvs.map (fun kv => Call.add kv.1 kv.2))
        = some (List.replicate 10 (Ret.added false) ++ [Ret.added true], c)) ∧
    (∀ kvs : List (Nat × Nat), kvs.length = 10 → (kvs.map Prod.fst).Nodup →
      ∃ c, runFresh (-5) (kvs.map (fun kv => Call.add kv.1 kv.2))
          = some (List.replicate 10 (Ret.added false), c) ∧
        ∀ (i : Nat) (k : Nat) (v : Nat), kvs[i]? = some (k, v) →
          c.Get k = some ((v, true), c)) :=
  C7_default_capacity (-5) (by decide)

/-- C9 with the keys 1, 2, 3. -/
theorem C9_duplicate_key_scenario_witness :
    ∃ (s3 s : fifoCache Nat Nat),
      runFresh 3 [Call.add 1 10, Call.add 1 11, Call.add 2 20]
        = some ([Ret.added false, Ret.added false, Ret.added false], s3) ∧
      s3.cursor = 0 ∧
      sliceAt s3.entries 0 = some (some { key := 1, value := 10 }) ∧
      mapGet s3.index 1 = some 1 ∧
      s3.Add 3 30 = some (true, s) ∧
      runFresh 3 [Call.add 1 10, Call.add 1 11, Call.add 2 20, Call.add 3 30]
        = some ([Ret.added false, Ret.added false, Ret.added false, Ret.added true], s) ∧
      mapGet s.index 1 = none ∧
      s.Get 1 = some ((default, false), s) ∧
      sliceAt s.entries 1 = some (some { key := 1, value := 11 }) ∧
      s.Get 2 = some ((20, true), s) ∧
      s.Get 3 = some ((30, true), s) :=
  C9_duplicate_key_scenario 1 2 3 (by decide) (by decide) (by decide) 10 11 20 30

/-- C19 at capacity 2: key 1 was added twice, then two calls of `Add` with other keys. -/
theorem C19_residency_upper_bound_witness :
    ∃ (rs : List (Ret Nat)) (c : fifoCache Nat Nat) (rs' : List (Ret Nat)) (c' : fifoCache Nat Nat),
      runFresh 2 [Call.add 1 10, Call.add 1 11] = some (rs, c) ∧
      run c ([(2, 20), (3, 30)].map (fun kv => Call.add kv.1 kv.2)) = some (rs', c') ∧
      c'.Get 1 = some ((default, false), c') :=
  C19_residency_upper_bound 2 [Call.add 1 10, Call.add 1 11] [(2, 20), (3, 30)] 1
    (by decide) (by decide)

/-- C8 at the requested size 0 on a runtime that allocates up to `2^45` slots. -/
theorem C8_construction_amended_witness :
    (∃ c0 : fifoCache Nat Nat, NewAlloc 35184372088832 0 = some (Except.ok c0) ∧
      c0.maxSize = (capacity 0 : Int) ∧ c0.entries.length = capacity 0 ∧
      ∀ calls : List (Call Nat Nat), ∃ rs c, run c0 calls = some (rs, c)) ∧
    (∃ store, (NewAlloc 35184372088832 0 :
          Option (Except String (fifoCache String main.GoAny))) = some (Except.ok store) ∧
      main.NewFIFOAlloc 35184372088832 0 = some (Except.ok { store := store })) :=
  (C8_construction_amended 35184372088832 0).2.2 (by decide)

end Claims

end fifo
